import Mathlib

/-!
# lazyssh: the UI settings store (internal/adapters/ui/settings.go)

A shallow embedding of the settingsManager of `settings.go` and of the parts of
the Go standard library it calls (`os.ReadFile`, `os.MkdirAll`, `os.WriteFile`,
`json.Unmarshal`, `json.MarshalIndent`), followed by the theorems that settle
the specification claims about `LoadSortMode` and `SaveSortMode`.

Conventions of the embedding:
* file contents are sequences of Unicode scalar values (`List Char`), that is,
  files hold valid UTF-8 text;
* the process owns every node of the filesystem and is not the superuser, so
  access is decided by the owner permission bits; the umask leaves the modes
  requested by the program unchanged (as the usual 022 does for 0o750 and
  0o600); symbolic links are not modelled;
* every call to the operating system is recorded in a trace.
-/

namespace LazySSH

/-! ## encoding/json: reading JSON text -/

/-- A parsed JSON value. A number keeps its literal, as the Go decoder does
until it knows the type it decodes into. -/
inductive JSON where
  | null
  | bool (b : Bool)
  | num (lit : List Char)
  | str (s : List Char)
  | arr (elems : List JSON)
  | obj (members : List (List Char × JSON))

instance : Inhabited JSON := ⟨JSON.null⟩

/-- The four bytes the JSON scanner treats as white space. -/
def isSpace (c : Char) : Bool :=
  c == ' ' || c == '\t' || c == '\r' || c == '\n'

def skipSpace : List Char → List Char
  | [] => []
  | c :: cs => if isSpace c then skipSpace cs else c :: cs

/-- Value of a hexadecimal digit (either case). -/
def hexVal (c : Char) : Option Nat :=
  if '0' ≤ c ∧ c ≤ '9' then some (c.toNat - 48)
  else if 'a' ≤ c ∧ c ≤ 'f' then some (c.toNat - 87)
  else if 'A' ≤ c ∧ c ≤ 'F' then some (c.toNat - 55)
  else none

/-- Four hexadecimal digits as a number (the `getu4` of encoding/json, after
the leading backslash and u). -/
def hex4 (a b c d : Char) : Option Nat :=
  match hexVal a, hexVal b, hexVal c, hexVal d with
  | some a, some b, some c, some d => some (((a * 16 + b) * 16 + c) * 16 + d)
  | _, _, _, _ => none

/-- The Unicode replacement character U+FFFD. -/
def replacementChar : Char := Char.ofNat 0xFFFD

def isSurrogate (r : Nat) : Bool := 0xD800 ≤ r && r < 0xE000

/-- The function `utf16.DecodeRune`: the code point of a surrogate pair, U+FFFD when
the two halves do not form a pair. -/
def decodeSurrogates (r1 r2 : Nat) : Char :=
  if 0xD800 ≤ r1 ∧ r1 < 0xDC00 ∧ 0xDC00 ≤ r2 ∧ r2 < 0xE000 then
    Char.ofNat ((r1 - 0xD800) * 0x400 + (r2 - 0xDC00) + 0x10000)
  else replacementChar

/-- The character a one-letter escape stands for. -/
def simpleEscape (e : Char) : Option Char :=
  if e = '\"' then some '\"'
  else if e = '\\' then some '\\'
  else if e = '/' then some '/'
  else if e = 'b' then some (Char.ofNat 8)
  else if e = 'f' then some (Char.ofNat 12)
  else if e = 'n' then some '\n'
  else if e = 'r' then some '\r'
  else if e = 't' then some '\t'
  else none

/-- Reads a string literal whose opening quote has been consumed: the decoded
text and the input after the closing quote. Control characters must be
escaped. `pending` is a surrogate escape just read and not yet decoded: it
forms one code point with a following escape that completes the pair, and
decodes to U+FFFD otherwise. -/
def parseStringAux : Option Nat → List Char → Option (List Char × List Char)
  | _, [] => none
  | pending, c :: cs =>
    let lone : List Char := match pending with
      | some _ => [replacementChar]
      | none => []
    if c = '\"' then some (lone, cs)
    else if c = '\\' then
      match cs with
      | [] => none
      | e :: cs1 =>
        if e = 'u' then
          match cs1 with
          | h1 :: h2 :: h3 :: h4 :: cs2 =>
            match hex4 h1 h2 h3 h4 with
            | none => none
            | some r =>
              match pending with
              | some r0 =>
                if decodeSurrogates r0 r = replacementChar then
                  if isSurrogate r then
                    (parseStringAux (some r) cs2).map fun p => (replacementChar :: p.1, p.2)
                  else
                    (parseStringAux none cs2).map fun p =>
                      (replacementChar :: Char.ofNat r :: p.1, p.2)
                else
                  (parseStringAux none cs2).map fun p => (decodeSurrogates r0 r :: p.1, p.2)
              | none =>
                if isSurrogate r then parseStringAux (some r) cs2
                else (parseStringAux none cs2).map fun p => (Char.ofNat r :: p.1, p.2)
          | _ => none
        else
          match simpleEscape e with
          | none => none
          | some x => (parseStringAux none cs1).map fun p => (lone ++ x :: p.1, p.2)
    else if c.toNat < 0x20 then none
    else (parseStringAux none cs).map fun p => (lone ++ c :: p.1, p.2)

def parseString (cs : List Char) : Option (List Char × List Char) :=
  parseStringAux none cs

/-- The longest run of decimal digits at the head of the input. -/
def spanDigits : List Char → List Char × List Char
  | [] => ([], [])
  | c :: cs =>
    if c.isDigit then ((spanDigits cs).1.cons c, (spanDigits cs).2) else ([], c :: cs)

/-- Optional fraction part of a number: a dot followed by at least one digit. -/
def parseFrac (cs : List Char) : Option (List Char × List Char) :=
  match cs with
  | [] => some ([], [])
  | c :: r =>
    if c = '.' then
      match spanDigits r with
      | ([], _) => none
      | (ds, r1) => some ('.' :: ds, r1)
    else some ([], c :: r)

/-- Optional exponent part of a number. -/
def parseExp (cs : List Char) : Option (List Char × List Char) :=
  match cs with
  | [] => some ([], [])
  | c :: r =>
    if c = 'e' ∨ c = 'E' then
      match r with
      | [] => none
      | s :: r1 =>
        if s = '+' ∨ s = '-' then
          match spanDigits r1 with
          | ([], _) => none
          | (ds, r2) => some (c :: s :: ds, r2)
        else
          match spanDigits (s :: r1) with
          | ([], _) => none
          | (ds, r2) => some (c :: ds, r2)
    else some ([], c :: r)

/-- Integer part of a number: a single 0, or a nonzero digit followed by digits. -/
def parseIntPart (cs : List Char) : Option (List Char × List Char) :=
  match cs with
  | [] => none
  | c :: r =>
    if c = '0' then some (['0'], r)
    else if c.isDigit then some (spanDigits (c :: r))
    else none

/-- Reads a number literal (JSON grammar) and returns it with the rest of the input. -/
def parseNumber (cs : List Char) : Option (List Char × List Char) :=
  let signed : List Char × List Char :=
    match cs with
    | [] => ([], [])
    | c :: r => if c = '-' then (['-'], r) else ([], c :: r)
  match parseIntPart signed.2 with
  | none => none
  | some (ip, r1) =>
    match parseFrac r1 with
    | none => none
    | some (fp, r2) =>
      match parseExp r2 with
      | none => none
      | some (ep, r3) => some (signed.1 ++ ip ++ fp ++ ep, r3)

/-- Strips the given literal from the head of the input. -/
def expectLit : List Char → List Char → Option (List Char)
  | [], cs => some cs
  | _ :: _, [] => none
  | l :: ls, c :: cs => if l = c then expectLit ls cs else none

/-- The nesting limit of the JSON scanner (`maxNestingDepth`). -/
def maxNestingDepth : Nat := 10000

mutual
/-- Reads one JSON value. `fuel` bounds the recursion (one unit per nested
call), `depth` is the number of further levels of nesting the scanner allows. -/
def parseValue : Nat → Nat → List Char → Option (JSON × List Char)
  | 0, _, _ => none
  | fuel + 1, depth, cs =>
    match skipSpace cs with
    | [] => none
    | c :: r =>
      if c = '\x7b' then
        if depth = 0 then none
        else
          match skipSpace r with
          | [] => none
          | c1 :: r1 =>
            if c1 = '\x7d' then some (JSON.obj [], r1)
            else (parseMembers fuel (depth - 1) (c1 :: r1)).map fun p => (JSON.obj p.1, p.2)
      else if c = '[' then
        if depth = 0 then none
        else
          match skipSpace r with
          | [] => none
          | c1 :: r1 =>
            if c1 = ']' then some (JSON.arr [], r1)
            else (parseElems fuel (depth - 1) (c1 :: r1)).map fun p => (JSON.arr p.1, p.2)
      else if c = '\"' then
        (parseString r).map fun p => (JSON.str p.1, p.2)
      else if c = 't' then (expectLit ['r', 'u', 'e'] r).map fun r1 => (JSON.bool true, r1)
      else if c = 'f' then
        (expectLit ['a', 'l', 's', 'e'] r).map fun r1 => (JSON.bool false, r1)
      else if c = 'n' then (expectLit ['u', 'l', 'l'] r).map fun r1 => (JSON.null, r1)
      else (parseNumber (c :: r)).map fun p => (JSON.num p.1, p.2)
/-- Reads the members of an object up to and including the closing brace. -/
def parseMembers : Nat → Nat → List Char → Option (List (List Char × JSON) × List Char)
  | 0, _, _ => none
  | fuel + 1, depth, cs =>
    match skipSpace cs with
    | [] => none
    | q :: r =>
      if q = '\"' then
        match parseString r with
        | none => none
        | some (k, r1) =>
          match skipSpace r1 with
          | [] => none
          | colon :: r2 =>
            if colon = ':' then
              match parseValue fuel depth r2 with
              | none => none
              | some (v, r3) =>
                match skipSpace r3 with
                | [] => none
                | sep :: r4 =>
                  if sep = ',' then
                    (parseMembers fuel depth r4).map fun p => ((k, v) :: p.1, p.2)
                  else if sep = '\x7d' then some ([(k, v)], r4)
                  else none
            else none
      else none
/-- Reads the elements of an array up to and including the closing bracket. -/
def parseElems : Nat → Nat → List Char → Option (List JSON × List Char)
  | 0, _, _ => none
  | fuel + 1, depth, cs =>
    match parseValue fuel depth cs with
    | none => none
    | some (v, r1) =>
      match skipSpace r1 with
      | [] => none
      | sep :: r2 =>
        if sep = ',' then (parseElems fuel depth r2).map fun p => (v :: p.1, p.2)
        else if sep = ']' then some ([v], r2)
        else none
end

/-- The whole input as one JSON value surrounded by optional white space
(what `checkValid` accepts); `none` is a syntax error. Reading a value, a
member list or an element list of `n` characters takes at most `n` units of
fuel (one for the call itself, the rest for the longest part it reads), so the
length of the input is enough. -/
def parseJSON (data : List Char) : Option JSON :=
  match parseValue (data.length + 1) maxNestingDepth data with
  | none => none
  | some (v, rest) => if skipSpace rest = [] then some v else none

/-! ## The SortMode enumeration -/

/-- The kinds of Go type an enumeration is declared over. -/
inductive GoKind where
  | int
  | string
  deriving DecidableEq

/-- Modelled from the spec: the declaration of `SortMode` is not in
`settings.go`. The specification calls it an enumeration with a "string or
equivalent scalar encoding", so a value is a Go `int` (64 bits) or a Go
`string`; which of the two the type is declared over is the `kind` of
`SortModeDecl`. The type is taken to have no JSON methods of its own, so
encoding/json reads and writes it as it does any number or string. -/
inductive SortMode where
  | int (n : Int)
  | str (s : List Char)
  deriving DecidableEq

/-- The value belongs to a type of the given kind: a 64-bit signed integer, or
a string. -/
def SortMode.hasKind : SortMode → GoKind → Bool
  | SortMode.int n, GoKind.int => decide (-(2 ^ 63 : Int) ≤ n) && decide (n < (2 ^ 63 : Int))
  | SortMode.str _, GoKind.string => true
  | _, _ => false

/-- The zero value of a type of the given kind (what `var settings uiSettings`
holds). -/
def zeroValue : GoKind → SortMode
  | GoKind.int => SortMode.int 0
  | GoKind.string => SortMode.str []

/-- Modelled from the spec: the parts of the `SortMode` declaration that
`settings.go` uses and does not define: the kind of the type, the constant
`SortByAliasAsc` ("a default value") and the method `valid` ("a validity
predicate"), both opaque. The field is "omitted when unset/default", an
"absent/empty" value "means unset", and an absent field makes the getter
return the default: the value `omitempty` omits, the zero value of the type,
is the default unless `valid` rejects it (`zero_unset`). -/
structure SortModeDecl where
  kind : GoKind
  SortByAliasAsc : SortMode
  valid : SortMode → Bool
  zero_unset : valid (zeroValue kind) = true → zeroValue kind = SortByAliasAsc

/-- The document `uiSettings`, with its single field `sort_mode,omitempty`. -/
structure uiSettings where
  SortMode : SortMode
  deriving DecidableEq

/-! ## Errors -/

abbrev Path := List String

inductive Errno where
  | ENOENT
  | EACCES
  | ENOTDIR
  | EISDIR
  | EEXIST
  deriving DecidableEq

/-- The error values the program can see. -/
inductive Error where
  /-- The value `errors.New("nil settings manager")`. -/
  | nilManager
  /-- An `*fs.PathError` of the os package. -/
  | pathError (op : String) (path : Path) (errno : Errno)
  /-- A `*json.SyntaxError`: the input is not one JSON value. -/
  | malformedJSON
  /-- A `*json.UnmarshalTypeError`: a JSON value that does not fit the Go type;
  `field` is empty for the document itself. -/
  | unmarshalType (value : String) (field : String)
  /-- The error of `os.UserHomeDir`. -/
  | noHome
  deriving DecidableEq

/-- The test `errors.Is(err, os.ErrNotExist)`. -/
def Error.isNotExist : Error → Bool
  | Error.pathError _ _ Errno.ENOENT => true
  | _ => false

/-! ## encoding/json: decoding into `uiSettings` -/

/-- Value of a run of decimal digits. -/
def digitsValue (ds : List Char) : Nat :=
  ds.foldl (fun a c => a * 10 + (c.toNat - 48)) 0

/-- The call `strconv.ParseInt(s, 10, 64)`: an optional sign and at least one
decimal digit, within the range of int64. -/
def ParseInt (s : List Char) : Option Int :=
  let signed : Bool × List Char :=
    match s with
    | [] => (false, [])
    | c :: r => if c = '-' then (true, r) else if c = '+' then (false, r) else (false, c :: r)
  if signed.2 = [] ∨ signed.2.all Char.isDigit = false then none
  else
    let v : Int := if signed.1 then -(digitsValue signed.2 : Int) else (digitsValue signed.2 : Int)
    if -(2 ^ 63 : Int) ≤ v ∧ v < (2 ^ 63 : Int) then some v else none

/-- Case folding of one character of a key as `foldName` does it, for the
characters that fold to an ASCII letter: the lower-case ASCII letters, the
long s (U+017F) and the Kelvin sign (U+212A). Other characters fold among
themselves and never match an ASCII name. -/
def foldRune (c : Char) : Char :=
  if 'a' ≤ c ∧ c ≤ 'z' then Char.ofNat (c.toNat - 32)
  else if c = Char.ofNat 0x17F then 'S'
  else if c = Char.ofNat 0x212A then 'K'
  else c

/-- The key of an object member selects the field `sort_mode`: an exact match
or, failing that, a match after case folding. -/
def matchesField (key : List Char) : Bool :=
  key.map foldRune = "SORT_MODE".toList

/-- Stores a JSON value into the field of kind `kind` holding `cur`
(`literalStore`, and `array` / `object` for a non-composite target): `null`
leaves the field as it is, a literal of the field's kind sets it, anything
else is a type error and leaves the field as it is. -/
def storeField (kind : GoKind) (j : JSON) (cur : SortMode) : SortMode × Option Error :=
  match j with
  | JSON.null => (cur, none)
  | JSON.num lit =>
    match kind with
    | GoKind.int =>
      match ParseInt lit with
      | some n => (SortMode.int n, none)
      | none => (cur, some (Error.unmarshalType ("number " ++ String.mk lit) "sort_mode"))
    | GoKind.string => (cur, some (Error.unmarshalType "number" "sort_mode"))
  | JSON.str s =>
    match kind with
    | GoKind.string => (SortMode.str s, none)
    | GoKind.int => (cur, some (Error.unmarshalType "string" "sort_mode"))
  | JSON.bool _ => (cur, some (Error.unmarshalType "bool" "sort_mode"))
  | JSON.arr _ => (cur, some (Error.unmarshalType "array" "sort_mode"))
  | JSON.obj _ => (cur, some (Error.unmarshalType "object" "sort_mode"))

/-- Decodes the members of an object in order into the document. A member
whose key selects no field is skipped; the first type error is kept and
decoding goes on. -/
def decodeMembers (kind : GoKind) :
    List (List Char × JSON) → uiSettings × Option Error → uiSettings × Option Error
  | [], st => st
  | (k, v) :: rest, st =>
    if matchesField k then
      let r := storeField kind v st.1.SortMode
      decodeMembers kind rest (⟨r.1⟩, st.2.orElse fun _ => r.2)
    else decodeMembers kind rest st

/-- The call `json.Unmarshal(data, &settings)`: the document after the call
and the error. -/
def Unmarshal (kind : GoKind) (data : List Char) (settings : uiSettings) :
    uiSettings × Option Error :=
  match parseJSON data with
  | none => (settings, some Error.malformedJSON)
  | some (JSON.obj members) => decodeMembers kind members (settings, none)
  | some JSON.null => (settings, none)
  | some (JSON.bool _) => (settings, some (Error.unmarshalType "bool" ""))
  | some (JSON.num _) => (settings, some (Error.unmarshalType "number" ""))
  | some (JSON.str _) => (settings, some (Error.unmarshalType "string" ""))
  | some (JSON.arr _) => (settings, some (Error.unmarshalType "array" ""))

/-! ## encoding/json: writing `uiSettings` -/

/-- The call `strconv.AppendInt(_, n, 10)`. -/
def formatInt (n : Int) : List Char :=
  if n < 0 then '-' :: Nat.toDigits 10 n.natAbs else Nat.toDigits 10 n.natAbs

/-- How `appendString` writes one character of a string, with HTML escaping
on as in `json.Marshal`. -/
def escapeChar (c : Char) : List Char :=
  if c = '\"' ∨ c = '\\' then ['\\', c]
  else if c = Char.ofNat 8 then ['\\', 'b']
  else if c = Char.ofNat 12 then ['\\', 'f']
  else if c = '\n' then ['\\', 'n']
  else if c = '\r' then ['\\', 'r']
  else if c = '\t' then ['\\', 't']
  else if c.toNat < 0x20 ∨ c = '<' ∨ c = '>' ∨ c = '&' then
    ['\\', 'u', '0', '0', Nat.digitChar (c.toNat / 16), Nat.digitChar (c.toNat % 16)]
  else if c = Char.ofNat 0x2028 ∨ c = Char.ofNat 0x2029 then
    ['\\', 'u', '2', '0', '2', Nat.digitChar (c.toNat % 16)]
  else [c]

/-- JSON text of a value: a decimal number, or a quoted string. -/
def encodeValue : SortMode → List Char
  | SortMode.int n => formatInt n
  | SortMode.str s => '\"' :: (s.flatMap escapeChar ++ ['\"'])

/-- The test `isEmptyValue` behind `omitempty`: the number 0, the empty string. -/
def isEmptyValue : SortMode → Bool
  | SortMode.int n => decide (n = 0)
  | SortMode.str s => s.isEmpty

/-- The call `json.MarshalIndent(settings, "", "  ")`. Encoding a number or a
string cannot fail. -/
def MarshalIndent (settings : uiSettings) : List Char × Option Error :=
  if isEmptyValue settings.SortMode then ("\x7b\x7d".toList, none)
  else
    ("\x7b\n  \"sort_mode\": ".toList ++ encodeValue settings.SortMode ++ "\n\x7d".toList,
      none)

/-! ## The filesystem and the os package -/

/-- A node of the filesystem with its permission bits. -/
inductive Node where
  | file (mode : Nat) (data : List Char)
  | dir (mode : Nat)
  deriving DecidableEq

/-- A filesystem state: the nodes by absolute path (the list of the path's
components, `[]` for the root); the first entry of a path is the current one. -/
abbrev FS := List (Path × Node)

/-- The node at a path, if there is one. -/
def FS.get : FS → Path → Option Node
  | [], _ => none
  | (q, n) :: rest, p => if q = p then some n else FS.get rest p

/-- Every node has its ancestors, and they are directories. -/
def FS.wellFormed (fs : FS) : Bool :=
  fs.all fun e => (List.range e.1.length).all fun i =>
    match FS.get fs (e.1.take i) with
    | some (Node.dir _) => true
    | _ => false

/-- A call of the program into the os package. -/
inductive Call where
  | readFile (path : Path)
  | mkdirAll (path : Path) (perm : Nat)
  | writeFile (path : Path) (data : List Char) (perm : Nat)
  deriving DecidableEq

/-- The world outside the program: the filesystem and the calls made so far. -/
structure World where
  fs : FS
  trace : List Call

/-- Path resolution from the directory `cur` through the components `rest`:
every directory on the way to the last component, `cur` first, must exist and
be searchable by its owner. `none` when resolution reaches the last
component. -/
def walkFrom (fs : FS) : Path → Path → Option Errno
  | _, [] => none
  | cur, c :: rest =>
    match FS.get fs cur with
    | none => some Errno.ENOENT
    | some (Node.file _ _) => some Errno.ENOTDIR
    | some (Node.dir mode) =>
      if mode &&& 0o100 = 0 then some Errno.EACCES else walkFrom fs (cur ++ [c]) rest

/-- Resolution of the directory part of an absolute path, from the root. -/
def walk (fs : FS) (p : Path) : Option Errno :=
  walkFrom fs [] p

/-- The calls `os.Stat` and `os.Lstat`. -/
def stat (fs : FS) (p : Path) : Except Errno Node :=
  match walk fs p with
  | some e => Except.error e
  | none =>
    match FS.get fs p with
    | none => Except.error Errno.ENOENT
    | some n => Except.ok n

/-- Adds a node at a path that has none: the parent directory must be
writable by its owner. -/
def create (fs : FS) (p : Path) (n : Node) : Except Errno FS :=
  match p with
  | [] => Except.error Errno.ENOENT
  | _ :: _ =>
    match FS.get fs p.dropLast with
    | some (Node.dir mode) =>
      if mode &&& 0o200 = 0 then Except.error Errno.EACCES else Except.ok ((p, n) :: fs)
    | _ => Except.error Errno.ENOENT

/-- The call `os.Mkdir(path, perm)`. -/
def mkdir (fs : FS) (p : Path) (perm : Nat) : Except Errno FS :=
  match walk fs p with
  | some e => Except.error e
  | none =>
    match FS.get fs p with
    | some _ => Except.error Errno.EEXIST
    | none => create fs p (Node.dir perm)

/-- The body of `os.MkdirAll`, on the path given last component first: if the
path can be examined, succeed on a directory and fail on anything else;
otherwise make the parent (unless it is the root), then the directory
itself, and accept a failure of that when the directory exists after all. -/
def mkdirAllRev (perm : Nat) : List String → FS → Option Error × FS
  | [], fs =>
    match stat fs [] with
    | Except.ok (Node.dir _) => (none, fs)
    | Except.ok (Node.file _ _) => (some (Error.pathError "mkdir" [] Errno.ENOTDIR), fs)
    | Except.error _ => (some (Error.pathError "mkdir" [] Errno.ENOENT), fs)
  | c :: parent, fs =>
    let p := (c :: parent).reverse
    match stat fs p with
    | Except.ok (Node.dir _) => (none, fs)
    | Except.ok (Node.file _ _) => (some (Error.pathError "mkdir" p Errno.ENOTDIR), fs)
    | Except.error _ =>
      let up : Option Error × FS :=
        if parent = [] then (none, fs) else mkdirAllRev perm parent fs
      match up.1 with
      | some e => (some e, up.2)
      | none =>
        match mkdir up.2 p perm with
        | Except.ok fs2 => (none, fs2)
        | Except.error en =>
          match stat up.2 p with
          | Except.ok (Node.dir _) => (none, up.2)
          | _ => (some (Error.pathError "mkdir" p en), up.2)

/-- The call `os.MkdirAll(path, perm)`. -/
def MkdirAll (w : World) (p : Path) (perm : Nat) : Option Error × World :=
  let r := mkdirAllRev perm p.reverse w.fs
  (r.1, ⟨r.2, w.trace ++ [Call.mkdirAll p perm]⟩)

/-- The call `os.ReadFile(path)`. -/
def ReadFile (w : World) (p : Path) : (List Char × Option Error) × World :=
  let w1 : World := ⟨w.fs, w.trace ++ [Call.readFile p]⟩
  match walk w.fs p with
  | some e => (([], some (Error.pathError "open" p e)), w1)
  | none =>
    match FS.get w.fs p with
    | none => (([], some (Error.pathError "open" p Errno.ENOENT)), w1)
    | some (Node.dir mode) =>
      if mode &&& 0o400 = 0 then (([], some (Error.pathError "open" p Errno.EACCES)), w1)
      else (([], some (Error.pathError "read" p Errno.EISDIR)), w1)
    | some (Node.file mode data) =>
      if mode &&& 0o400 = 0 then (([], some (Error.pathError "open" p Errno.EACCES)), w1)
      else ((data, none), w1)

/-- The call `os.WriteFile(path, data, perm)`: opens with
`O_WRONLY|O_CREATE|O_TRUNC`, so `perm` is the mode of a file it creates and an
existing file keeps its mode. -/
def WriteFile (w : World) (p : Path) (data : List Char) (perm : Nat) : Option Error × World :=
  let tr := w.trace ++ [Call.writeFile p data perm]
  match walk w.fs p with
  | some e => (some (Error.pathError "open" p e), ⟨w.fs, tr⟩)
  | none =>
    match FS.get w.fs p with
    | some (Node.dir _) => (some (Error.pathError "open" p Errno.EISDIR), ⟨w.fs, tr⟩)
    | some (Node.file mode _) =>
      if mode &&& 0o200 = 0 then (some (Error.pathError "open" p Errno.EACCES), ⟨w.fs, tr⟩)
      else (none, ⟨(p, Node.file mode data) :: w.fs, tr⟩)
    | none =>
      match create w.fs p (Node.file perm data) with
      | Except.ok fs2 => (none, ⟨fs2, tr⟩)
      | Except.error en => (some (Error.pathError "open" p en), ⟨w.fs, tr⟩)

/-- The mode of the file at a path after a successful `os.WriteFile` with
`perm`, from the node the path had before: an existing file keeps its mode, a
new file gets `perm`. -/
def modeAfterWrite (perm : Nat) (old : Option Node) : Nat :=
  match old with
  | some (Node.file mode _) => mode
  | _ => perm

/-! ## settings.go -/

/-- The struct `settingsManager`. Its logger is used by the constructor only. -/
structure settingsManager where
  filePath : Path
  deriving DecidableEq

/-- A warning written to the logger. -/
structure LogEntry where
  msg : String
  err : Error
  deriving DecidableEq

/-- The function `newSettingsManager`; `home` is the result of
`os.UserHomeDir()`. Returns the manager (`none` for nil) and what was logged. -/
def newSettingsManager (home : Except Error Path) : Option settingsManager × List LogEntry :=
  match home with
  | Except.error err =>
    (none, [⟨"failed to determine home directory for settings", err⟩])
  | Except.ok h => (some ⟨h ++ [".lazyssh", "settings.json"]⟩, [])

/-- The method `load`. -/
def load (D : SortModeDecl) (m : settingsManager) (w : World) :
    (uiSettings × Option Error) × World :=
  let settings : uiSettings := ⟨zeroValue D.kind⟩
  let r := ReadFile w m.filePath
  match r.1.2 with
  | some err =>
    if err.isNotExist then ((settings, none), r.2)
    else ((settings, some err), r.2)
  | none =>
    if r.1.1.length = 0 then ((settings, none), r.2)
    else
      let u := Unmarshal D.kind r.1.1 settings
      match u.2 with
      | some err => ((u.1, some err), r.2)
      | none => ((u.1, none), r.2)

/-- The method `save`. -/
def save (m : settingsManager) (settings : uiSettings) (w : World) : Option Error × World :=
  let r := MkdirAll w m.filePath.dropLast 0o750
  match r.1 with
  | some err => (some err, r.2)
  | none =>
    let j := MarshalIndent settings
    match j.2 with
    | some err => (some err, r.2)
    | none => WriteFile r.2 m.filePath j.1 0o600

/-- The method `LoadSortMode`; the receiver `none` is the nil pointer. -/
def LoadSortMode (D : SortModeDecl) (m : Option settingsManager) (w : World) :
    (SortMode × Option Error) × World :=
  match m with
  | none => ((D.SortByAliasAsc, some Error.nilManager), w)
  | some m =>
    let r := load D m w
    match r.1.2 with
    | some err => ((D.SortByAliasAsc, some err), r.2)
    | none =>
      if !D.valid r.1.1.SortMode then ((D.SortByAliasAsc, none), r.2)
      else ((r.1.1.SortMode, none), r.2)

/-- The method `SaveSortMode`; the receiver `none` is the nil pointer. -/
def SaveSortMode (D : SortModeDecl) (m : Option settingsManager) (mode : SortMode)
    (w : World) : Option Error × World :=
  match m with
  | none => (some Error.nilManager, w)
  | some m =>
    let r := load D m w
    match r.1.2 with
    | some err => (some err, r.2)
    | none =>
      let settings : uiSettings := { r.1.1 with SortMode := mode }
      save m settings r.2

/-! ## The serialization in the words of the specification -/

/-- Two-space-indented JSON text of an object, given each member as its key
and the text of its value: one member per line, in the order given. -/
def indentObject (members : List (List Char × List Char)) : List Char :=
  match members with
  | [] => "\x7b\x7d".toList
  | _ :: _ =>
    "\x7b\n".toList ++
      ",\n".toList.intercalate
        (members.map fun kv => "  \"".toList ++ kv.1 ++ "\": ".toList ++ kv.2) ++
      "\n\x7d".toList

/-- The document whose only possible member is `sort_mode` with the value `v`,
left out when `v` is the zero value of the type. -/
def documentOf (kind : GoKind) (v : SortMode) : List (List Char × List Char) :=
  if v = zeroValue kind then [] else [("sort_mode".toList, encodeValue v)]

/-! ## Example declarations and states -/

/-- An example declaration of integer kind: four modes numbered from 0, the
first being the default. -/
def fourModes : SortModeDecl where
  kind := GoKind.int
  SortByAliasAsc := SortMode.int 0
  valid := fun v => decide (v = SortMode.int 0 ∨ v = SortMode.int 1 ∨ v = SortMode.int 2
    ∨ v = SortMode.int 3)
  zero_unset := fun _ => rfl

/-- An example declaration of string kind: two named modes, the empty string
not being one of them. -/
def namedModes : SortModeDecl where
  kind := GoKind.string
  SortByAliasAsc := SortMode.str "alias_asc".toList
  valid := fun v => decide (v = SortMode.str "alias_asc".toList
    ∨ v = SortMode.str "alias_desc".toList)
  zero_unset := fun h => absurd h (by decide)

/-- The manager that `newSettingsManager` returns for the home directory `/home/u`. -/
def homeManager : settingsManager := ⟨["home", "u", ".lazyssh", "settings.json"]⟩

/-- A filesystem with the home directory `/home/u` and nothing in it. -/
def freshFS : FS :=
  [([], Node.dir 0o755), (["home"], Node.dir 0o755), (["home", "u"], Node.dir 0o700)]

/-- The filesystem `freshFS` with a settings directory and a settings file of
the given mode and content. -/
def fsWithFile (mode : Nat) (content : String) : FS :=
  (["home", "u", ".lazyssh", "settings.json"], Node.file mode content.toList) ::
    (["home", "u", ".lazyssh"], Node.dir 0o750) :: freshFS

/-! ## Auxiliary definitions for the statements and the proofs -/

/-- The JSON value that `encodeValue` writes down. -/
def jsonOf : SortMode → JSON
  | SortMode.int n => JSON.num (formatInt n)
  | SortMode.str s => JSON.str s

/-- The members of the object that `MarshalIndent` writes for a document. -/
def membersOf (settings : uiSettings) : List (List Char × JSON) :=
  if isEmptyValue settings.SortMode then []
  else [("sort_mode".toList, jsonOf settings.SortMode)]

/-- The digits `ds` are the decimal numeral of `n`: nonempty, all digits, of
value `n` and without a leading zero unless the numeral is `0`. -/
structure IsNumeral (n : Nat) (ds : List Char) : Prop where
  ne_nil : ds ≠ []
  digits : ∀ c ∈ ds, c.isDigit = true
  value : ∀ a, ds.foldl (fun a c => a * 10 + (c.toNat - 48)) a = a * 10 ^ ds.length + n
  lead : ds.head? = some '0' → ds = ['0']

/-- What may follow a number for the number to end there: not a digit and not
the start of a fraction or an exponent. -/
def endsNumber (c : Char) : Prop :=
  c.isDigit = false ∧ c ≠ '.' ∧ c ≠ 'e' ∧ c ≠ 'E'

end LazySSH

namespace LazySSH

/-! ## Decimal digits: what `formatInt` writes, `parseNumber` and `ParseInt` read back -/

theorem digitChar_isDigit (d : Nat) (h : d < 10) : (Nat.digitChar d).isDigit = true := by
  interval_cases d <;> decide

theorem digitChar_toNat (d : Nat) (h : d < 10) : (Nat.digitChar d).toNat - 48 = d := by
  interval_cases d <;> decide

theorem digitChar_eq_zero (d : Nat) (h : d < 10) (h0 : Nat.digitChar d = '0') : d = 0 := by
  interval_cases d <;> first | rfl | (exact absurd h0 (by decide))

theorem isNumeral_single (n : Nat) (h : n < 10) : IsNumeral n [Nat.digitChar n] := by
  refine ⟨by simp, ?_, ?_, ?_⟩
  · intro c hc
    rw [List.mem_singleton] at hc
    rw [hc]
    exact digitChar_isDigit n h
  · intro a
    simp [digitChar_toNat n h]
  · intro _
    simp_all

theorem isNumeral_snoc (n : Nat) (ds : List Char) (h : IsNumeral (n / 10) ds) (hn : n / 10 ≠ 0) :
    IsNumeral n (ds ++ [Nat.digitChar (n % 10)]) := by
  have hlt : n % 10 < 10 := Nat.mod_lt _ (by norm_num)
  refine ⟨by simp, ?_, ?_, ?_⟩
  · intro c hc
    rcases List.mem_append.mp hc with hc | hc
    · exact h.digits c hc
    · rw [List.mem_singleton] at hc
      rw [hc]
      exact digitChar_isDigit _ hlt
  · intro a
    rw [List.foldl_append, h.value a]
    simp only [List.foldl_cons, List.foldl_nil, List.length_append, List.length_singleton,
      digitChar_toNat _ hlt]
    have := Nat.div_add_mod n 10
    rw [pow_succ]
    nlinarith [this]
  · intro hh
    exfalso
    cases ds with
    | nil => exact h.ne_nil rfl
    | cons c tl =>
      have hc : c = '0' := by simpa using hh
      have h1 := h.lead (by simp [hc])
      have h2 := h.value 0
      rw [h1] at h2
      simp at h2
      exact hn h2.symm

theorem toDigitsCore_numeral (fuel : Nat) : ∀ (n : Nat) (acc : List Char), n < fuel →
    ∃ ds, Nat.toDigitsCore 10 fuel n acc = ds ++ acc ∧ IsNumeral n ds := by
  induction fuel with
  | zero => intro n acc h; exact absurd h (Nat.not_lt_zero _)
  | succ fuel ih =>
    intro n acc h
    by_cases h0 : n / 10 = 0
    · refine ⟨[Nat.digitChar n], ?_, isNumeral_single n (by omega)⟩
      have hmod : n % 10 = n := Nat.mod_eq_of_lt (by omega)
      simp [Nat.toDigitsCore, h0, hmod]
    · obtain ⟨ds, hds, hnum⟩ := ih (n / 10) (Nat.digitChar (n % 10) :: acc) (by omega)
      refine ⟨ds ++ [Nat.digitChar (n % 10)], ?_, isNumeral_snoc n ds hnum h0⟩
      simp [Nat.toDigitsCore, h0, hds]

theorem toDigits_numeral (n : Nat) : IsNumeral n (Nat.toDigits 10 n) := by
  obtain ⟨ds, hds, hnum⟩ := toDigitsCore_numeral (n + 1) n [] (Nat.lt_succ_self n)
  have : Nat.toDigits 10 n = ds := by simpa [Nat.toDigits] using hds
  rw [this]
  exact hnum

theorem spanDigits_append (ds : List Char) (c : Char) (rest : List Char)
    (hd : ∀ x ∈ ds, x.isDigit = true) (hc : c.isDigit = false) :
    spanDigits (ds ++ c :: rest) = (ds, c :: rest) := by
  induction ds with
  | nil => simp [spanDigits, hc]
  | cons x tl ih =>
    have hx : x.isDigit = true := hd x (List.mem_cons_self _ _)
    have := ih (fun y hy => hd y (List.mem_cons_of_mem _ hy))
    simp [spanDigits, hx, this]

theorem digitsValue_numeral (n : Nat) (ds : List Char) (h : IsNumeral n ds) :
    digitsValue ds = n := by
  have := h.value 0
  simpa [digitsValue] using this

end LazySSH

namespace LazySSH

/-! ## Reading back a number written by `formatInt` -/

theorem ne_of_isDigit (c x : Char) (hc : c.isDigit = true) (hx : x.isDigit = false) : c ≠ x := by
  intro h
  rw [h, hx] at hc
  exact Bool.noConfusion hc

theorem parseIntPart_numeral (n : Nat) (ds : List Char) (h : IsNumeral n ds) (c : Char)
    (rest : List Char) (hc : c.isDigit = false) :
    parseIntPart (ds ++ c :: rest) = some (ds, c :: rest) := by
  cases ds with
  | nil => exact absurd rfl h.ne_nil
  | cons d tl =>
    have hd : d.isDigit = true := h.digits d (List.mem_cons_self _ _)
    by_cases h0 : d = '0'
    · have := h.lead (by simp [h0])
      simp only [List.cons.injEq] at this
      obtain ⟨_, htl⟩ := this
      subst htl
      simp [parseIntPart, h0]
    · have hs := spanDigits_append (d :: tl) c rest h.digits hc
      simp only [List.cons_append] at hs
      simp [parseIntPart, h0, hd, hs]

theorem parseNumber_numeral (n : Nat) (ds : List Char) (h : IsNumeral n ds) (c : Char)
    (rest : List Char) (hc : endsNumber c) :
    parseNumber (ds ++ c :: rest) = some (ds, c :: rest) := by
  obtain ⟨hc1, hc2, hc3, hc4⟩ := hc
  have hip := parseIntPart_numeral n ds h c rest hc1
  cases ds with
  | nil => exact absurd rfl h.ne_nil
  | cons d tl =>
    have hd : d.isDigit = true := h.digits d (List.mem_cons_self _ _)
    have hminus : d ≠ '-' := ne_of_isDigit d '-' hd (by decide)
    simp only [List.cons_append] at hip
    simp [parseNumber, hminus, hip, parseFrac, parseExp, hc2, hc3, hc4]

theorem parseNumber_neg_numeral (n : Nat) (ds : List Char) (h : IsNumeral n ds) (c : Char)
    (rest : List Char) (hc : endsNumber c) :
    parseNumber ('-' :: (ds ++ c :: rest)) = some ('-' :: ds, c :: rest) := by
  obtain ⟨hc1, hc2, hc3, hc4⟩ := hc
  have hip := parseIntPart_numeral n ds h c rest hc1
  simp [parseNumber, hip, parseFrac, parseExp, hc2, hc3, hc4]

theorem parseNumber_formatInt (n : Int) (c : Char) (rest : List Char) (hc : endsNumber c) :
    parseNumber (formatInt n ++ c :: rest) = some (formatInt n, c :: rest) := by
  unfold formatInt
  split
  · exact parseNumber_neg_numeral _ _ (toDigits_numeral n.natAbs) c rest hc
  · exact parseNumber_numeral _ _ (toDigits_numeral n.natAbs) c rest hc

/-- A number written by `formatInt` starts with a minus sign or a digit. -/
theorem formatInt_head (n : Int) :
    ∃ d tl, formatInt n = d :: tl ∧ (d = '-' ∨ d.isDigit = true) := by
  unfold formatInt
  split
  · exact ⟨'-', _, rfl, Or.inl rfl⟩
  · have h := toDigits_numeral n.natAbs
    cases hds : Nat.toDigits 10 n.natAbs with
    | nil => exact absurd hds h.ne_nil
    | cons d tl =>
      refine ⟨d, tl, rfl, Or.inr ?_⟩
      exact h.digits d (by rw [hds]; exact List.mem_cons_self _ _)

theorem formatInt_ne_nil (n : Int) : formatInt n ≠ [] := by
  obtain ⟨d, tl, h, _⟩ := formatInt_head n
  rw [h]
  exact List.cons_ne_nil _ _

/-- The value reader hands anything that starts like a number to `parseNumber`. -/
theorem parseValue_number (fuel depth : Nat) (d : Char) (tl : List Char)
    (hd : d = '-' ∨ d.isDigit = true) :
    parseValue (fuel + 1) depth (d :: tl) =
      (parseNumber (d :: tl)).map fun p => (JSON.num p.1, p.2) := by
  have hsp : isSpace d = false := by
    rcases hd with h | h
    · subst h; decide
    · cases hs : isSpace d with
      | false => rfl
      | true =>
        simp only [isSpace, Bool.or_eq_true, beq_iff_eq] at hs
        rcases hs with ((hs | hs) | hs) | hs <;> (subst hs; exact absurd h (by decide))
  have hne : ∀ x : Char, x.isDigit = false → x ≠ '-' → d ≠ x := by
    intro x hx hx2
    rcases hd with h | h
    · rw [h]; exact fun e => hx2 e.symm
    · exact ne_of_isDigit d x h hx
  have h1 := hne '\x7b' (by decide) (by decide)
  have h2 := hne '[' (by decide) (by decide)
  have h3 := hne '\"' (by decide) (by decide)
  have h4 := hne 't' (by decide) (by decide)
  have h5 := hne 'f' (by decide) (by decide)
  have h6 := hne 'n' (by decide) (by decide)
  simp [parseValue, skipSpace, hsp, h1, h2, h3, h4, h5, h6]

theorem parseValue_formatInt (fuel depth : Nat) (n : Int) (c : Char) (rest : List Char)
    (hc : endsNumber c) :
    parseValue (fuel + 1) depth (formatInt n ++ c :: rest) =
      some (JSON.num (formatInt n), c :: rest) := by
  obtain ⟨d, tl, h, hd⟩ := formatInt_head n
  have hp := parseNumber_formatInt n c rest hc
  rw [h] at hp ⊢
  rw [List.cons_append] at hp ⊢
  rw [parseValue_number fuel depth d _ hd, hp]
  rfl

theorem ParseInt_formatInt (n : Int) (hlo : -(2 ^ 63 : Int) ≤ n) (hhi : n < (2 ^ 63 : Int)) :
    ParseInt (formatInt n) = some n := by
  have h := toDigits_numeral n.natAbs
  have hall : (Nat.toDigits 10 n.natAbs).all Char.isDigit = true := by
    rw [List.all_eq_true]
    exact h.digits
  have hval := digitsValue_numeral _ _ h
  unfold formatInt
  split
  · rename_i hneg
    have habs : -((n.natAbs : Nat) : Int) = n := by omega
    simp [ParseInt, h.ne_nil, hall, hval]
    rw [abs_of_neg hneg]
    norm_num at hlo hhi
    refine ⟨⟨?_, ?_⟩, ?_⟩ <;> omega
  · rename_i hpos
    cases hds : Nat.toDigits 10 n.natAbs with
    | nil => exact absurd hds h.ne_nil
    | cons d tl =>
      have hd : d.isDigit = true := h.digits d (by rw [hds]; exact List.mem_cons_self _ _)
      have h1 : d ≠ '-' := ne_of_isDigit d '-' hd (by decide)
      have h2 : d ≠ '+' := ne_of_isDigit d '+' hd (by decide)
      have habs : ((n.natAbs : Nat) : Int) = n := by omega
      rw [hds] at hall hval
      simp [ParseInt, h1, h2, hall, hval, habs]
      norm_num at hlo hhi
      constructor <;> omega

end LazySSH

namespace LazySSH

/-! ## Reading back a string written by `encodeValue` -/

theorem hexVal_digitChar (d : Nat) (h : d < 16) : hexVal (Nat.digitChar d) = some d := by
  interval_cases d <;> decide

/-- A character below U+0100 written as a six-character escape reads back as itself. -/
theorem parseStringAux_hexEscape (c : Char) (h : c.toNat < 256) (tail : List Char) :
    parseStringAux none
        ('\\' :: 'u' :: '0' :: '0' :: Nat.digitChar (c.toNat / 16) ::
          Nat.digitChar (c.toNat % 16) :: tail) =
      (parseStringAux none tail).map fun p => (c :: p.1, p.2) := by
  have h0 : hexVal '0' = some 0 := by decide
  have hq := hexVal_digitChar (c.toNat / 16) (by omega)
  have hr := hexVal_digitChar (c.toNat % 16) (Nat.mod_lt _ (by norm_num))
  have hsum : ((0 * 16 + 0) * 16 + c.toNat / 16) * 16 + c.toNat % 16 = c.toNat := by omega
  have hs : isSurrogate c.toNat = false := by
    simp only [isSurrogate, Bool.and_eq_false_imp, decide_eq_true_eq, decide_eq_false_iff_not]
    intro h1
    omega
  have hof : Char.ofNat c.toNat = c := Char.ofNat_toNat c
  have e1 : ('\\' : Char) ≠ '\"' := by decide
  rw [parseStringAux.eq_def]
  simp only [e1, if_false, if_true, hex4, h0, hq, hr, hsum, hs, hof]
  rfl

/-- One character written by `escapeChar` reads back as that character. -/
theorem parseStringAux_escapeChar (c : Char) (tail : List Char) :
    parseStringAux none (escapeChar c ++ tail) =
      (parseStringAux none tail).map fun p => (c :: p.1, p.2) := by
  unfold escapeChar
  split
  · rename_i h
    rcases h with h | h <;> subst h <;> rw [parseStringAux.eq_def] <;> simp [simpleEscape]
  split
  · rename_i h
    subst h
    rw [parseStringAux.eq_def]
    simp [simpleEscape]
  split
  · rename_i h
    subst h
    rw [parseStringAux.eq_def]
    simp [simpleEscape]
  split
  · rename_i h
    subst h
    rw [parseStringAux.eq_def]
    simp [simpleEscape]
  split
  · rename_i h
    subst h
    rw [parseStringAux.eq_def]
    simp [simpleEscape]
  split
  · rename_i h
    subst h
    rw [parseStringAux.eq_def]
    simp [simpleEscape]
  split
  · rename_i h
    have hlt : c.toNat < 256 := by
      rcases h with h | h | h | h
      · omega
      · subst h; decide
      · subst h; decide
      · subst h; decide
    exact parseStringAux_hexEscape c hlt tail
  split
  · rename_i h
    rcases h with h | h <;> subst h <;>
      rw [parseStringAux.eq_def] <;> simp [hex4, hexVal, isSurrogate] <;> rfl
  · rename_i h1 h2 h3 h4 h5 h6 h7 h8
    have hq : c ≠ '\"' := fun e => h1 (Or.inl e)
    have hb : c ≠ '\\' := fun e => h1 (Or.inr e)
    have hlo : ¬ c.toNat < 32 := fun e => h7 (Or.inl e)
    rw [parseStringAux.eq_def]
    simp [hq, hb, hlo]

theorem parseStringAux_escaped (s : List Char) (rest : List Char) :
    parseStringAux none (s.flatMap escapeChar ++ '\"' :: rest) = some (s, rest) := by
  induction s with
  | nil => rw [List.flatMap_nil, List.nil_append, parseStringAux.eq_def]; simp
  | cons c tl ih =>
    rw [List.flatMap_cons, List.append_assoc, parseStringAux_escapeChar, ih]
    rfl

theorem parseValue_string (fuel depth : Nat) (s : List Char) (rest : List Char) :
    parseValue (fuel + 1) depth ('\"' :: (s.flatMap escapeChar ++ '\"' :: rest)) =
      some (JSON.str s, rest) := by
  have h := parseStringAux_escaped s rest
  simp [parseValue, skipSpace, isSpace, parseString, h]

end LazySSH

namespace LazySSH

/-! ## Reading back a document written by `MarshalIndent` -/

theorem parseString_key (rest : List Char) :
    parseString ('s' :: 'o' :: 'r' :: 't' :: '_' :: 'm' :: 'o' :: 'd' :: 'e' :: '\"' :: rest) =
      some ("sort_mode".toList, rest) := by
  have h := parseStringAux_escaped "sort_mode".toList rest
  have hk : "sort_mode".toList.flatMap escapeChar = "sort_mode".toList := by decide
  rw [hk] at h
  exact h

/-- The text of a one-member document reads back as an object with the member
`sort_mode`, whatever encoded value `enc` reads back as `j`. -/
theorem parseValue_document (k : Nat) (enc : List Char) (j : JSON)
    (h : ∀ fuel depth, parseValue (fuel + 1) depth (enc ++ ['\n', '\x7d']) =
      some (j, ['\n', '\x7d'])) :
    parseValue (k + 3) maxNestingDepth
        ('\x7b' :: '\n' :: ' ' :: ' ' :: '\"' :: 's' :: 'o' :: 'r' :: 't' :: '_' :: 'm' :: 'o' ::
          'd' :: 'e' :: '\"' :: ':' :: ' ' :: (enc ++ ['\n', '\x7d'])) =
      some (JSON.obj [("sort_mode".toList, j)], []) := by
  have hv : ∀ (depth : Nat) (x : List Char), x = ' ' :: (enc ++ ['\n', '\x7d']) →
      parseValue (k + 1) depth x = some (j, ['\n', '\x7d']) := by
    intro depth x hx
    subst hx
    have := h k depth
    rw [parseValue] at this ⊢
    simpa [skipSpace, isSpace] using this
  have hkey := parseString_key (':' :: ' ' :: (enc ++ ['\n', '\x7d']))
  rw [parseValue]
  simp [parseMembers, skipSpace, isSpace, maxNestingDepth, hkey, hv]

theorem parseValue_encodeValue (v : SortMode) (fuel depth : Nat) :
    parseValue (fuel + 1) depth (encodeValue v ++ ['\n', '\x7d']) =
      some (jsonOf v, ['\n', '\x7d']) := by
  cases v with
  | int n => exact parseValue_formatInt fuel depth n '\n' ['\x7d'] (And.intro (by decide)
      (And.intro (by decide) (And.intro (by decide) (by decide))))
  | str s =>
    have := parseValue_string fuel depth s ['\n', '\x7d']
    simpa [encodeValue, jsonOf] using this

theorem MarshalIndent_err (settings : uiSettings) : (MarshalIndent settings).2 = none := by
  unfold MarshalIndent
  split <;> rfl

theorem MarshalIndent_ne_nil (settings : uiSettings) : (MarshalIndent settings).1 ≠ [] := by
  unfold MarshalIndent
  split
  · decide
  · simp

/-- The text `MarshalIndent` writes is JSON: an object whose only possible
member is `sort_mode`. -/
theorem parseJSON_MarshalIndent (settings : uiSettings) :
    parseJSON (MarshalIndent settings).1 = some (JSON.obj (membersOf settings)) := by
  unfold MarshalIndent membersOf
  split
  · rfl
  · have h := parseValue_document ((encodeValue settings.SortMode).length + 17)
      (encodeValue settings.SortMode) (jsonOf settings.SortMode)
      (fun fuel depth => parseValue_encodeValue settings.SortMode fuel depth)
    have hdata : "\x7b\n  \"sort_mode\": ".toList ++ encodeValue settings.SortMode
        ++ "\n\x7d".toList =
        '\x7b' :: '\n' :: ' ' :: ' ' :: '\"' :: 's' :: 'o' :: 'r' :: 't' :: '_' :: 'm' :: 'o' ::
          'd' :: 'e' :: '\"' :: ':' :: ' ' :: (encodeValue settings.SortMode ++ ['\n', '\x7d']) := by
      simp
    have hlen : ('\x7b' :: '\n' :: ' ' :: ' ' :: '\"' :: 's' :: 'o' :: 'r' :: 't' :: '_' :: 'm' ::
        'o' :: 'd' :: 'e' :: '\"' :: ':' :: ' ' ::
          (encodeValue settings.SortMode ++ ['\n', '\x7d'])).length + 1 =
        (encodeValue settings.SortMode).length + 17 + 3 := by
      simp
    simp only [hdata]
    unfold parseJSON
    rw [hlen, h]
    rfl

theorem storeField_jsonOf (kind : GoKind) (v cur : SortMode) (hk : v.hasKind kind = true) :
    storeField kind (jsonOf v) cur = (v, none) := by
  cases v with
  | int n =>
    cases kind with
    | int =>
      simp only [SortMode.hasKind, Bool.and_eq_true, decide_eq_true_eq] at hk
      simp [storeField, jsonOf, ParseInt_formatInt n hk.1 hk.2]
    | string => exact absurd hk (by simp [SortMode.hasKind])
  | str s =>
    cases kind with
    | int => exact absurd hk (by simp [SortMode.hasKind])
    | string => rfl

theorem eq_zeroValue_of_isEmptyValue (kind : GoKind) (v : SortMode)
    (hk : v.hasKind kind = true) (he : isEmptyValue v = true) : v = zeroValue kind := by
  cases v with
  | int n =>
    cases kind with
    | int =>
      have : n = 0 := by simpa [isEmptyValue] using he
      rw [this]
      rfl
    | string => exact absurd hk (by simp [SortMode.hasKind])
  | str s =>
    cases kind with
    | int => exact absurd hk (by simp [SortMode.hasKind])
    | string =>
      have : s = [] := by simpa [isEmptyValue] using he
      rw [this]
      rfl

/-- Decoding what `MarshalIndent` wrote for a value gives the value back. -/
theorem Unmarshal_MarshalIndent (kind : GoKind) (v : SortMode) (hk : v.hasKind kind = true) :
    Unmarshal kind (MarshalIndent ⟨v⟩).1 ⟨zeroValue kind⟩ = (⟨v⟩, none) := by
  unfold Unmarshal
  rw [parseJSON_MarshalIndent]
  simp only [membersOf]
  split
  · rename_i he
    rw [eq_zeroValue_of_isEmptyValue kind v hk he]
    rfl
  · have hm : matchesField ['s', 'o', 'r', 't', '_', 'm', 'o', 'd', 'e'] = true := by decide
    simp [decodeMembers, hm, storeField_jsonOf kind v _ hk]

end LazySSH

namespace LazySSH

/-! ## The fuel of the JSON reader is enough -/

theorem skipSpace_length_le (cs : List Char) : (skipSpace cs).length ≤ cs.length := by
  induction cs with
  | nil => simp [skipSpace]
  | cons c tl ih =>
    simp only [skipSpace]
    split
    · simp only [List.length_cons]
      omega
    · exact le_refl _

theorem spanDigits_length_le (cs : List Char) : (spanDigits cs).2.length ≤ cs.length := by
  induction cs with
  | nil => simp [spanDigits]
  | cons c tl ih =>
    simp only [spanDigits]
    split
    · simp only [List.length_cons]
      omega
    · exact le_refl _

theorem expectLit_length_le (lit : List Char) : ∀ (cs rest : List Char),
    expectLit lit cs = some rest → rest.length ≤ cs.length := by
  induction lit with
  | nil =>
    intro cs rest h
    simp only [expectLit, Option.some.injEq] at h
    rw [h]
  | cons l ls ih =>
    intro cs rest h
    cases cs with
    | nil => simp [expectLit] at h
    | cons c tl =>
      simp only [expectLit] at h
      split at h
      · have := ih tl rest h
        simp only [List.length_cons]
        omega
      · exact absurd h (by simp)

theorem parseFrac_length_le (cs lit rest : List Char) (h : parseFrac cs = some (lit, rest)) :
    rest.length ≤ cs.length := by
  unfold parseFrac at h
  split at h
  · simp only [Option.some.injEq, Prod.mk.injEq] at h
    rw [← h.2]
  · rename_i c r
    split at h
    · have hs := spanDigits_length_le r
      split at h
      · exact absurd h (by simp)
      · rename_i ds r1 _ heq
        simp only [Option.some.injEq, Prod.mk.injEq] at h
        rw [heq] at hs
        rw [← h.2]
        simp only [List.length_cons]
        simp only at hs
        omega
    · simp only [Option.some.injEq, Prod.mk.injEq] at h
      rw [← h.2]

theorem parseExp_length_le (cs lit rest : List Char) (h : parseExp cs = some (lit, rest)) :
    rest.length ≤ cs.length := by
  unfold parseExp at h
  split at h
  · simp only [Option.some.injEq, Prod.mk.injEq] at h
    rw [← h.2]
  · rename_i c r
    split at h
    · split at h
      · exact absurd h (by simp)
      · rename_i s r1
        split at h
        · have hs := spanDigits_length_le r1
          split at h
          · exact absurd h (by simp)
          · rename_i ds r2 _ heq
            simp only [Option.some.injEq, Prod.mk.injEq] at h
            rw [heq] at hs
            rw [← h.2]
            simp only [List.length_cons]
            simp only at hs
            omega
        · have hs := spanDigits_length_le (s :: r1)
          split at h
          · exact absurd h (by simp)
          · rename_i ds r2 _ heq
            simp only [Option.some.injEq, Prod.mk.injEq] at h
            rw [heq] at hs
            rw [← h.2]
            simp only [List.length_cons] at hs ⊢
            omega
    · simp only [Option.some.injEq, Prod.mk.injEq] at h
      rw [← h.2]

theorem parseIntPart_length_lt (cs lit rest : List Char)
    (h : parseIntPart cs = some (lit, rest)) : rest.length < cs.length := by
  unfold parseIntPart at h
  split at h
  · exact absurd h (by simp)
  · rename_i c r
    split at h
    · simp only [Option.some.injEq, Prod.mk.injEq] at h
      rw [← h.2]
      simp
    · split at h
      · rename_i _ hd
        simp only [Option.some.injEq] at h
        have hs := spanDigits_length_le r
        have h2 : (spanDigits (c :: r)).2 = (spanDigits r).2 := by
          simp [spanDigits, hd]
        have h3 : rest = (spanDigits (c :: r)).2 := by rw [h]
        rw [h3, h2]
        simp only [List.length_cons]
        omega
      · exact absurd h (by simp)

/-- The part of `parseNumber` after the sign. -/
theorem parseNumber_unsigned_length_le (sign cs1 lit rest : List Char)
    (h : (match parseIntPart cs1 with
      | none => none
      | some (ip, r1) =>
        match parseFrac r1 with
        | none => none
        | some (fp, r2) =>
          match parseExp r2 with
          | none => none
          | some (ep, r3) => some (sign ++ ip ++ fp ++ ep, r3)) = some (lit, rest)) :
    rest.length < cs1.length := by
  split at h
  · exact absurd h (by simp)
  · rename_i ip r1 hip
    have h1 := parseIntPart_length_lt _ _ _ hip
    split at h
    · exact absurd h (by simp)
    · rename_i fp r2 hfp
      have h2 := parseFrac_length_le _ _ _ hfp
      split at h
      · exact absurd h (by simp)
      · rename_i ep r3 hep
        have h3 := parseExp_length_le _ _ _ hep
        simp only [Option.some.injEq, Prod.mk.injEq] at h
        rw [← h.2]
        omega

theorem parseNumber_length_lt (cs lit rest : List Char)
    (h : parseNumber cs = some (lit, rest)) : rest.length < cs.length := by
  cases cs with
  | nil => simp [parseNumber, parseIntPart] at h
  | cons c r =>
    by_cases hc : c = '-'
    · have := parseNumber_unsigned_length_le ['-'] r lit rest (by simpa [parseNumber, hc] using h)
      simp only [List.length_cons]
      omega
    · exact parseNumber_unsigned_length_le [] (c :: r) lit rest
        (by simpa [parseNumber, hc] using h)

theorem map_some_rest {α β : Type} (o : Option (α × List Char))
    (f : α × List Char → β × List Char) (b : β) (rest : List Char)
    (h : o.map f = some (b, rest)) (hf : ∀ p, (f p).2 = p.2) : ∃ a, o = some (a, rest) := by
  cases o with
  | none => exact absurd h (by simp)
  | some p =>
    simp only [Option.map_some', Option.some.injEq] at h
    have h2 := hf p
    rw [h] at h2
    refine ⟨p.1, ?_⟩
    rw [show rest = p.2 from h2]

theorem map_some_literal {β : Type} (o : Option (List Char)) (b v : β) (rest : List Char)
    (h : o.map (fun r1 => (b, r1)) = some (v, rest)) : o = some rest := by
  cases o with
  | none => exact absurd h (by simp)
  | some p =>
    simp only [Option.map_some', Option.some.injEq, Prod.mk.injEq] at h
    rw [h.2]

theorem parseStringAux_length_lt (n : Nat) : ∀ (cs : List Char), cs.length ≤ n →
    ∀ (pending : Option Nat) (s rest : List Char),
      parseStringAux pending cs = some (s, rest) → rest.length < cs.length := by
  induction n with
  | zero =>
    intro cs hn pending s rest h
    have h0 : cs = [] := List.length_eq_zero.mp (Nat.le_zero.mp hn)
    rw [h0, parseStringAux.eq_def] at h
    exact absurd h (by simp)
  | succ n ih =>
    intro cs hn pending s rest h
    rw [parseStringAux.eq_def] at h
    simp only at h
    repeat' (split at h)
    all_goals first
      | exact Option.noConfusion h
      | (simp only [Option.some.injEq, Prod.mk.injEq] at h
         rw [← h.2]
         simp)
      | (obtain ⟨s0, h0⟩ := map_some_rest _ _ _ _ h (fun _ => rfl)
         have := ih _ (by simp only [List.length_cons] at hn ⊢; omega) _ _ _ h0
         simp only [List.length_cons] at this ⊢
         omega)
      | (have hrec := ih _ (by simp only [List.length_cons] at hn ⊢; omega) _ _ _ h
         simp only [List.length_cons] at hrec ⊢
         omega)

theorem parseString_length_lt (cs s rest : List Char) (h : parseString cs = some (s, rest)) :
    rest.length < cs.length :=
  parseStringAux_length_lt cs.length cs (le_refl _) none s rest h

/-- A value read with some fuel is read, with the same result, with any fuel
that is at least the number of characters read. -/
theorem parseValue_fuel_step (f : Nat)
    (ihM : ∀ d cs ms rest, parseMembers f d cs = some (ms, rest) →
      rest.length < cs.length ∧
        ∀ g, cs.length - rest.length ≤ g → parseMembers g d cs = some (ms, rest))
    (ihE : ∀ d cs es rest, parseElems f d cs = some (es, rest) →
      rest.length < cs.length ∧
        ∀ g, cs.length - rest.length ≤ g → parseElems g d cs = some (es, rest))
    (d : Nat) (cs : List Char) (v : JSON) (rest : List Char)
    (h : parseValue (f + 1) d cs = some (v, rest)) :
    rest.length < cs.length ∧
      ∀ g, cs.length - rest.length ≤ g → parseValue g d cs = some (v, rest) := by
  rw [parseValue] at h
  have hl0 := skipSpace_length_le cs
  cases hsk : skipSpace cs with
  | nil =>
    rw [hsk] at h
    exact Option.noConfusion h
  | cons c r =>
    rw [hsk] at h hl0
    simp only [List.length_cons] at hl0
    simp only at h
    have scalar : ∀ (x : Option (JSON × List Char)),
        (∀ g, parseValue (g + 1) d cs = x) → x = some (v, rest) → rest.length < cs.length →
        rest.length < cs.length ∧
          ∀ g, cs.length - rest.length ≤ g → parseValue g d cs = some (v, rest) := by
      intro x hx hxe hlt
      refine ⟨hlt, fun g hg => ?_⟩
      obtain ⟨g1, rfl⟩ : ∃ g1, g = g1 + 1 := ⟨g - 1, by omega⟩
      rw [hx g1, hxe]
    by_cases h1 : c = '\x7b'
    · simp only [h1, if_true] at h
      by_cases hd : d = 0
      · simp only [hd, if_true] at h
        exact Option.noConfusion h
      · simp only [hd, if_false] at h
        have hl1 := skipSpace_length_le r
        cases hsk2 : skipSpace r with
        | nil =>
          rw [hsk2] at h
          exact Option.noConfusion h
        | cons c1 r1 =>
          rw [hsk2] at h hl1
          simp only [List.length_cons] at hl1
          simp only at h
          by_cases h2 : c1 = '\x7d'
          · simp only [h2, if_true, Option.some.injEq, Prod.mk.injEq] at h
            obtain ⟨hv, hr⟩ := h
            subst hv hr
            apply scalar (some (JSON.obj [], r1)) _ rfl (by omega)
            intro g
            rw [parseValue]
            simp [hsk, h1, hd, hsk2, h2]
          · simp only [h2, if_false] at h
            cases hm : parseMembers f (d - 1) (c1 :: r1) with
            | none =>
              rw [hm] at h
              exact Option.noConfusion h
            | some p =>
              rw [hm] at h
              simp only [Option.map_some', Option.some.injEq, Prod.mk.injEq] at h
              obtain ⟨hv, hr⟩ := h
              obtain ⟨hlt, hfuel⟩ := ihM (d - 1) (c1 :: r1) p.1 p.2 hm
              subst hv hr
              simp only [List.length_cons] at hlt hfuel
              refine ⟨by omega, fun g hg => ?_⟩
              obtain ⟨g1, rfl⟩ : ∃ g1, g = g1 + 1 := ⟨g - 1, by omega⟩
              rw [parseValue]
              simp [hsk, h1, hd, hsk2, h2, hfuel g1 (by omega)]
    · simp only [h1, if_false] at h
      by_cases h3 : c = '['
      · simp only [h3, if_true] at h
        by_cases hd : d = 0
        · simp only [hd, if_true] at h
          exact Option.noConfusion h
        · simp only [hd, if_false] at h
          have hl1 := skipSpace_length_le r
          cases hsk2 : skipSpace r with
          | nil =>
            rw [hsk2] at h
            exact Option.noConfusion h
          | cons c1 r1 =>
            rw [hsk2] at h hl1
            simp only [List.length_cons] at hl1
            simp only at h
            by_cases h2 : c1 = ']'
            · simp only [h2, if_true, Option.some.injEq, Prod.mk.injEq] at h
              obtain ⟨hv, hr⟩ := h
              subst hv hr
              apply scalar (some (JSON.arr [], r1)) _ rfl (by omega)
              intro g
              rw [parseValue]
              simp [hsk, h1, h3, hd, hsk2, h2]
            · simp only [h2, if_false] at h
              cases hm : parseElems f (d - 1) (c1 :: r1) with
              | none =>
                rw [hm] at h
                exact Option.noConfusion h
              | some p =>
                rw [hm] at h
                simp only [Option.map_some', Option.some.injEq, Prod.mk.injEq] at h
                obtain ⟨hv, hr⟩ := h
                obtain ⟨hlt, hfuel⟩ := ihE (d - 1) (c1 :: r1) p.1 p.2 hm
                subst hv hr
                simp only [List.length_cons] at hlt hfuel
                refine ⟨by omega, fun g hg => ?_⟩
                obtain ⟨g1, rfl⟩ : ∃ g1, g = g1 + 1 := ⟨g - 1, by omega⟩
                rw [parseValue]
                simp [hsk, h1, h3, hd, hsk2, h2, hfuel g1 (by omega)]
      · simp only [h3, if_false] at h
        have hrest : rest.length < cs.length := by
          split at h
          · obtain ⟨a, ha⟩ := map_some_rest _ _ _ _ h (fun _ => rfl)
            have := parseString_length_lt _ _ _ ha
            omega
          · split at h
            · have := expectLit_length_le _ _ _ (map_some_literal _ _ _ _ h)
              omega
            · split at h
              · have := expectLit_length_le _ _ _ (map_some_literal _ _ _ _ h)
                omega
              · split at h
                · have := expectLit_length_le _ _ _ (map_some_literal _ _ _ _ h)
                  omega
                · obtain ⟨a, ha⟩ := map_some_rest _ _ _ _ h (fun _ => rfl)
                  have := parseNumber_length_lt _ _ _ ha
                  simp only [List.length_cons] at this
                  omega
        refine scalar _ (fun g => ?_) h hrest
        rw [parseValue]
        simp [hsk, h1, h3]

theorem parseMembers_fuel_step (f : Nat)
    (ihV : ∀ d cs v rest, parseValue f d cs = some (v, rest) →
      rest.length < cs.length ∧
        ∀ g, cs.length - rest.length ≤ g → parseValue g d cs = some (v, rest))
    (ihM : ∀ d cs ms rest, parseMembers f d cs = some (ms, rest) →
      rest.length < cs.length ∧
        ∀ g, cs.length - rest.length ≤ g → parseMembers g d cs = some (ms, rest))
    (d : Nat) (cs : List Char) (ms : List (List Char × JSON)) (rest : List Char)
    (h : parseMembers (f + 1) d cs = some (ms, rest)) :
    rest.length < cs.length ∧
      ∀ g, cs.length - rest.length ≤ g → parseMembers g d cs = some (ms, rest) := by
  rw [parseMembers] at h
  have hl0 := skipSpace_length_le cs
  cases hsk : skipSpace cs with
  | nil =>
    rw [hsk] at h
    exact Option.noConfusion h
  | cons q r =>
    rw [hsk] at h hl0
    simp only [List.length_cons] at hl0
    simp only at h
    by_cases hq : q = '\"'
    · simp only [hq, if_true] at h
      cases hkey : parseString r with
      | none =>
        rw [hkey] at h
        exact Option.noConfusion h
      | some kr =>
        obtain ⟨k, r1⟩ := kr
        have hl1 := parseString_length_lt _ _ _ hkey
        have hl2 := skipSpace_length_le r1
        rw [hkey] at h
        simp only at h
        cases hsk2 : skipSpace r1 with
        | nil =>
          rw [hsk2] at h
          exact Option.noConfusion h
        | cons colon r2 =>
          rw [hsk2] at h hl2
          simp only [List.length_cons] at hl2
          simp only at h
          by_cases hc : colon = ':'
          · simp only [hc, if_true] at h
            cases hval : parseValue f d r2 with
            | none =>
              rw [hval] at h
              exact Option.noConfusion h
            | some vr =>
              obtain ⟨v, r3⟩ := vr
              obtain ⟨hlv, hfv⟩ := ihV d r2 v r3 hval
              have hl3 := skipSpace_length_le r3
              rw [hval] at h
              simp only at h
              cases hsk3 : skipSpace r3 with
              | nil =>
                rw [hsk3] at h
                exact Option.noConfusion h
              | cons sep r4 =>
                rw [hsk3] at h hl3
                simp only [List.length_cons] at hl3
                simp only at h
                by_cases hs : sep = ','
                · simp only [hs, if_true] at h
                  cases hm : parseMembers f d r4 with
                  | none =>
                    rw [hm] at h
                    exact Option.noConfusion h
                  | some p =>
                    rw [hm] at h
                    simp only [Option.map_some', Option.some.injEq, Prod.mk.injEq] at h
                    obtain ⟨hv, hr⟩ := h
                    obtain ⟨hlm, hfm⟩ := ihM d r4 p.1 p.2 hm
                    subst hv hr
                    refine ⟨by omega, fun g hg => ?_⟩
                    obtain ⟨g1, rfl⟩ : ∃ g1, g = g1 + 1 := ⟨g - 1, by omega⟩
                    rw [parseMembers]
                    simp [hsk, hq, hkey, hsk2, hc, hfv g1 (by omega), hsk3, hs,
                      hfm g1 (by omega)]
                · simp only [hs, if_false] at h
                  by_cases he : sep = '\x7d'
                  · simp only [he, if_true, Option.some.injEq, Prod.mk.injEq] at h
                    obtain ⟨hv, hr⟩ := h
                    subst hv hr
                    refine ⟨by omega, fun g hg => ?_⟩
                    obtain ⟨g1, rfl⟩ : ∃ g1, g = g1 + 1 := ⟨g - 1, by omega⟩
                    rw [parseMembers]
                    simp [hsk, hq, hkey, hsk2, hc, hfv g1 (by omega), hsk3, he]
                  · simp only [he, if_false] at h
                    exact Option.noConfusion h
          · simp only [hc, if_false] at h
            exact Option.noConfusion h
    · simp only [hq, if_false] at h
      exact Option.noConfusion h

theorem parseElems_fuel_step (f : Nat)
    (ihV : ∀ d cs v rest, parseValue f d cs = some (v, rest) →
      rest.length < cs.length ∧
        ∀ g, cs.length - rest.length ≤ g → parseValue g d cs = some (v, rest))
    (ihE : ∀ d cs es rest, parseElems f d cs = some (es, rest) →
      rest.length < cs.length ∧
        ∀ g, cs.length - rest.length ≤ g → parseElems g d cs = some (es, rest))
    (d : Nat) (cs : List Char) (es : List JSON) (rest : List Char)
    (h : parseElems (f + 1) d cs = some (es, rest)) :
    rest.length < cs.length ∧
      ∀ g, cs.length - rest.length ≤ g → parseElems g d cs = some (es, rest) := by
  rw [parseElems] at h
  cases hval : parseValue f d cs with
  | none =>
    rw [hval] at h
    exact Option.noConfusion h
  | some vr =>
    obtain ⟨v, r1⟩ := vr
    obtain ⟨hlv, hfv⟩ := ihV d cs v r1 hval
    have hl1 := skipSpace_length_le r1
    rw [hval] at h
    simp only at h
    cases hsk : skipSpace r1 with
    | nil =>
      rw [hsk] at h
      exact Option.noConfusion h
    | cons sep r2 =>
      rw [hsk] at h hl1
      simp only [List.length_cons] at hl1
      simp only at h
      by_cases hs : sep = ','
      · simp only [hs, if_true] at h
        cases hm : parseElems f d r2 with
        | none =>
          rw [hm] at h
          exact Option.noConfusion h
        | some p =>
          rw [hm] at h
          simp only [Option.map_some', Option.some.injEq, Prod.mk.injEq] at h
          obtain ⟨hv, hr⟩ := h
          obtain ⟨hlm, hfm⟩ := ihE d r2 p.1 p.2 hm
          subst hv hr
          refine ⟨by omega, fun g hg => ?_⟩
          obtain ⟨g1, rfl⟩ : ∃ g1, g = g1 + 1 := ⟨g - 1, by omega⟩
          rw [parseElems]
          simp [hfv g1 (by omega), hsk, hs, hfm g1 (by omega)]
      · simp only [hs, if_false] at h
        by_cases he : sep = ']'
        · simp only [he, if_true, Option.some.injEq, Prod.mk.injEq] at h
          obtain ⟨hv, hr⟩ := h
          subst hv hr
          refine ⟨by omega, fun g hg => ?_⟩
          obtain ⟨g1, rfl⟩ : ∃ g1, g = g1 + 1 := ⟨g - 1, by omega⟩
          rw [parseElems]
          simp [hfv g1 (by omega), hsk, he]
        · simp only [he, if_false] at h
          exact Option.noConfusion h

/-- Fuel does not change what the reader returns: a value, member list or
element list read with some fuel is read, with the same result, with any
fuel that is at least the number of characters read. -/
theorem parse_fuel (f : Nat) :
    (∀ d cs v rest, parseValue f d cs = some (v, rest) →
      rest.length < cs.length ∧
        ∀ g, cs.length - rest.length ≤ g → parseValue g d cs = some (v, rest)) ∧
    (∀ d cs ms rest, parseMembers f d cs = some (ms, rest) →
      rest.length < cs.length ∧
        ∀ g, cs.length - rest.length ≤ g → parseMembers g d cs = some (ms, rest)) ∧
    (∀ d cs es rest, parseElems f d cs = some (es, rest) →
      rest.length < cs.length ∧
        ∀ g, cs.length - rest.length ≤ g → parseElems g d cs = some (es, rest)) := by
  induction f with
  | zero =>
    refine ⟨?_, ?_, ?_⟩
    · intro d cs v rest h
      rw [parseValue] at h
      exact Option.noConfusion h
    · intro d cs v rest h
      rw [parseMembers] at h
      exact Option.noConfusion h
    · intro d cs v rest h
      rw [parseElems] at h
      exact Option.noConfusion h
  | succ f ih =>
    obtain ⟨ihV, ihM, ihE⟩ := ih
    exact ⟨parseValue_fuel_step f ihM ihE, parseMembers_fuel_step f ihV ihM,
      parseElems_fuel_step f ihV ihE⟩

/-- The fuel `parseJSON` gives the reader is enough: whatever a larger amount
of fuel reads as the whole input, `parseJSON` reads too. -/
theorem parseJSON_of_fuel (f : Nat) (data : List Char) (v : JSON) (rest : List Char)
    (h : parseValue f maxNestingDepth data = some (v, rest)) (hrest : skipSpace rest = []) :
    parseJSON data = some v := by
  obtain ⟨_, hfuel⟩ := (parse_fuel f).1 maxNestingDepth data v rest h
  unfold parseJSON
  rw [hfuel (data.length + 1) (by omega)]
  simp [hrest]

end LazySSH

namespace LazySSH

/-! ## The filesystem: resolution, creation, reading and writing -/

theorem get_cons (q : Path) (n : Node) (fs : FS) (p : Path) :
    FS.get ((q, n) :: fs) p = if q = p then some n else FS.get fs p := rfl

theorem get_cons_self (p : Path) (n : Node) (fs : FS) : FS.get ((p, n) :: fs) p = some n := by
  simp [get_cons]

theorem get_cons_of_ne (q : Path) (n : Node) (fs : FS) (p : Path) (h : q ≠ p) :
    FS.get ((q, n) :: fs) p = FS.get fs p := by
  simp [get_cons, h]

theorem get_mem (fs : FS) (p : Path) (n : Node) (h : FS.get fs p = some n) : (p, n) ∈ fs := by
  induction fs with
  | nil => simp [FS.get] at h
  | cons e tl ih =>
    obtain ⟨q, x⟩ := e
    rw [get_cons] at h
    by_cases hq : q = p
    · simp only [hq, if_true, Option.some.injEq] at h
      rw [hq, h]
      exact List.mem_cons_self _ _
    · simp only [hq, if_false] at h
      exact List.mem_cons_of_mem _ (ih h)

/-- Resolution looks only at the strict ancestors of the path. -/
theorem walkFrom_congr (fs1 fs2 : FS) (rest : Path) : ∀ cur : Path,
    (∀ q : Path, q.length < cur.length + rest.length → FS.get fs1 q = FS.get fs2 q) →
    walkFrom fs1 cur rest = walkFrom fs2 cur rest := by
  induction rest with
  | nil => intro cur _; rfl
  | cons c r ih =>
    intro cur h
    have hcur : FS.get fs1 cur = FS.get fs2 cur := h cur (by simp)
    have hrec := ih (cur ++ [c]) (fun q hq => h q (by simp at hq ⊢; omega))
    simp only [walkFrom, hcur, hrec]

theorem walk_congr (fs1 fs2 : FS) (p : Path)
    (h : ∀ q : Path, q.length < p.length → FS.get fs1 q = FS.get fs2 q) :
    walk fs1 p = walk fs2 p :=
  walkFrom_congr fs1 fs2 p [] (fun q hq => h q (by simpa using hq))

theorem walk_cons (q : Path) (n : Node) (fs : FS) (p : Path) (h : p.length ≤ q.length) :
    walk ((q, n) :: fs) p = walk fs p := by
  apply walk_congr
  intro x hx
  apply get_cons_of_ne
  intro e
  rw [e] at h
  omega

/-- In a well-formed filesystem the ancestors of a node are directories. -/
theorem wellFormed_ancestors (fs : FS) (hwf : fs.wellFormed = true) (p : Path) (n : Node)
    (h : FS.get fs p = some n) (i : Nat) (hi : i < p.length) :
    ∃ mode, FS.get fs (p.take i) = some (Node.dir mode) := by
  have hmem := get_mem fs p n h
  unfold FS.wellFormed at hwf
  rw [List.all_eq_true] at hwf
  have h1 := hwf (p, n) hmem
  rw [List.all_eq_true] at h1
  have h2 := h1 i (List.mem_range.mpr hi)
  simp only at h2
  split at h2
  · rename_i mode heq
    exact ⟨mode, heq⟩
  · exact absurd h2 (by simp)

theorem walkFrom_ne_ENOENT (fs : FS) (rest : Path) : ∀ cur : Path,
    (∀ i, i < (cur ++ rest).length → ∃ mode, FS.get fs ((cur ++ rest).take i) = some (Node.dir mode)) →
    walkFrom fs cur rest ≠ some Errno.ENOENT := by
  induction rest with
  | nil => intro cur _; simp [walkFrom]
  | cons c r ih =>
    intro cur h
    obtain ⟨mode, hm⟩ := h cur.length (by simp)
    rw [List.take_left] at hm
    have hrec := ih (cur ++ [c]) (by simpa using h)
    simp only [walkFrom, hm]
    split
    · simp
    · exact hrec

theorem walk_ne_ENOENT (fs : FS) (hwf : fs.wellFormed = true) (p : Path) (n : Node)
    (h : FS.get fs p = some n) : walk fs p ≠ some Errno.ENOENT :=
  walkFrom_ne_ENOENT fs p [] (fun i hi => wellFormed_ancestors fs hwf p n h i (by simpa using hi))

theorem create_ok (fs fs2 : FS) (p : Path) (n : Node) (h : create fs p n = Except.ok fs2) :
    fs2 = (p, n) :: fs ∧ p ≠ [] := by
  unfold create at h
  split at h
  · exact absurd h (by simp)
  · split at h
    · split at h
      · exact absurd h (by simp)
      · simp only [Except.ok.injEq] at h
        exact ⟨h.symm, by simp⟩
    · exact absurd h (by simp)

theorem mkdir_ok (fs fs2 : FS) (p : Path) (perm : Nat) (h : mkdir fs p perm = Except.ok fs2) :
    fs2 = (p, Node.dir perm) :: fs ∧ FS.get fs p = none := by
  unfold mkdir at h
  split at h
  · exact absurd h (by simp)
  · split at h
    · exact absurd h (by simp)
    · rename_i hg
      exact ⟨(create_ok fs fs2 p _ h).1, hg⟩

theorem stat_ok (fs : FS) (p : Path) (n : Node) (h : stat fs p = Except.ok n) :
    walk fs p = none ∧ FS.get fs p = some n := by
  unfold stat at h
  split at h
  · exact absurd h (by simp)
  · rename_i hw
    split at h
    · exact absurd h (by simp)
    · rename_i hg
      simp only [Except.ok.injEq] at h
      rw [← h]
      exact ⟨hw, hg⟩

/-- The recursion of `MkdirAll` on a path touches no path that is longer. -/
theorem mkdirAllRev_get (perm : Nat) (pr : List String) : ∀ (fs : FS) (q : Path),
    pr.length < q.length → FS.get (mkdirAllRev perm pr fs).2 q = FS.get fs q := by
  induction pr with
  | nil =>
    intro fs q _
    unfold mkdirAllRev
    split <;> rfl
  | cons c parent ih =>
    intro fs q hq
    have hup : FS.get (if parent = [] then ((none : Option Error), fs)
        else mkdirAllRev perm parent fs).2 q = FS.get fs q := by
      split
      · rfl
      · exact ih fs q (by simp at hq; omega)
    rw [mkdirAllRev]
    split
    · rfl
    · rfl
    · simp only
      split
      · exact hup
      · split
        · rename_i fs2 hmk
          obtain ⟨h2, _⟩ := mkdir_ok _ _ _ _ hmk
          rw [h2, get_cons_of_ne]
          · exact hup
          · intro e
            rw [← e] at hq
            simp at hq
        · split
          · exact hup
          · exact hup

/-- Whatever `MkdirAll` adds is a directory with the requested mode. -/
theorem mkdirAllRev_get_new (perm : Nat) (pr : List String) : ∀ (fs : FS) (q : Path),
    FS.get (mkdirAllRev perm pr fs).2 q = FS.get fs q ∨
      FS.get (mkdirAllRev perm pr fs).2 q = some (Node.dir perm) := by
  induction pr with
  | nil =>
    intro fs q
    unfold mkdirAllRev
    split <;> exact Or.inl rfl
  | cons c parent ih =>
    intro fs q
    have hup : FS.get (if parent = [] then ((none : Option Error), fs)
        else mkdirAllRev perm parent fs).2 q = FS.get fs q ∨
        FS.get (if parent = [] then ((none : Option Error), fs)
        else mkdirAllRev perm parent fs).2 q = some (Node.dir perm) := by
      split
      · exact Or.inl rfl
      · exact ih fs q
    rw [mkdirAllRev]
    split
    · exact Or.inl rfl
    · exact Or.inl rfl
    · simp only
      split
      · exact hup
      · split
        · rename_i fs2 hmk
          obtain ⟨h2, _⟩ := mkdir_ok _ _ _ _ hmk
          rw [h2, get_cons]
          split
          · exact Or.inr rfl
          · exact hup
        · split
          · exact hup
          · exact hup

/-- A successful `MkdirAll` of a path that had no node leaves a directory
with the requested mode there. -/
theorem mkdirAllRev_created (perm : Nat) (pr : List String) (fs : FS)
    (hok : (mkdirAllRev perm pr fs).1 = none) (hnone : FS.get fs pr.reverse = none) :
    FS.get (mkdirAllRev perm pr fs).2 pr.reverse = some (Node.dir perm) := by
  cases pr with
  | nil =>
    unfold mkdirAllRev at hok
    split at hok
    · rename_i hst
      have := (stat_ok _ _ _ hst).2
      rw [List.reverse_nil] at hnone
      rw [hnone] at this
      exact absurd this (by simp)
    · exact absurd hok (by simp)
    · exact absurd hok (by simp)
  | cons c parent =>
    have hup : FS.get (if parent = [] then ((none : Option Error), fs)
        else mkdirAllRev perm parent fs).2 (c :: parent).reverse = FS.get fs (c :: parent).reverse := by
      split
      · rfl
      · exact mkdirAllRev_get perm parent fs _ (by simp)
    generalize hr : mkdirAllRev perm (c :: parent) fs = r at hok ⊢
    rw [mkdirAllRev] at hr
    split at hr
    · rename_i hst
      have := (stat_ok _ _ _ hst).2
      rw [hnone] at this
      exact absurd this (by simp)
    · rw [← hr] at hok
      exact absurd hok (by simp)
    · simp only at hr
      split at hr
      · rw [← hr] at hok
        exact absurd hok (by simp)
      · split at hr
        · rename_i fs2 hmk
          rw [← hr, (mkdir_ok _ _ _ _ hmk).1]
          exact get_cons_self _ _ _
        · split at hr
          · rename_i mode hst2
            have := (stat_ok _ _ _ hst2).2
            rw [hup, hnone] at this
            exact absurd this (by simp)
          · rw [← hr] at hok
            exact absurd hok (by simp)

end LazySSH

namespace LazySSH

/-! ## What the calls into the os package do -/

theorem ReadFile_world (w : World) (p : Path) :
    (ReadFile w p).2 = ⟨w.fs, w.trace ++ [Call.readFile p]⟩ := by
  unfold ReadFile
  simp only
  split
  · rfl
  · split
    · rfl
    · split <;> rfl
    · split <;> rfl

theorem ReadFile_file (w : World) (p : Path) (mode : Nat) (data : List Char)
    (hw : walk w.fs p = none) (hg : FS.get w.fs p = some (Node.file mode data))
    (hr : mode &&& 0o400 ≠ 0) : (ReadFile w p).1 = (data, none) := by
  unfold ReadFile
  simp [hw, hg, hr]

theorem ReadFile_ok_inv (w : World) (p : Path) (h : (ReadFile w p).1.2 = none) :
    walk w.fs p = none ∧
      ∃ mode, FS.get w.fs p = some (Node.file mode (ReadFile w p).1.1) ∧ mode &&& 0o400 ≠ 0 := by
  generalize hr : ReadFile w p = r at h ⊢
  unfold ReadFile at hr
  simp only at hr
  split at hr
  · rw [← hr] at h; exact absurd h (by simp)
  · rename_i hw
    refine ⟨hw, ?_⟩
    split at hr
    · rw [← hr] at h; exact absurd h (by simp)
    · split at hr <;> (rw [← hr] at h; exact absurd h (by simp))
    · rename_i mode data hg
      split at hr
      · rw [← hr] at h; exact absurd h (by simp)
      · rename_i hm
        rw [← hr]
        exact ⟨mode, hg, hm⟩

theorem ReadFile_notExist_inv (w : World) (p : Path) (e : Error)
    (h : (ReadFile w p).1.2 = some e) (hne : e.isNotExist = true) :
    walk w.fs p = some Errno.ENOENT ∨ FS.get w.fs p = none := by
  generalize hr : ReadFile w p = r at h
  unfold ReadFile at hr
  simp only at hr
  split at hr
  · rename_i en hw
    rw [← hr] at h
    simp only [Option.some.injEq] at h
    rw [← h] at hne
    cases en <;> first | exact Or.inl hw | exact absurd hne (by simp [Error.isNotExist])
  · split at hr
    · rename_i hg
      exact Or.inr hg
    · split at hr <;>
        (rw [← hr] at h
         simp only [Option.some.injEq] at h
         rw [← h] at hne
         exact absurd hne (by simp [Error.isNotExist]))
    · split at hr
      · rw [← hr] at h
        simp only [Option.some.injEq] at h
        rw [← h] at hne
        exact absurd hne (by simp [Error.isNotExist])
      · rw [← hr] at h
        exact absurd h (by simp)

theorem WriteFile_trace (w : World) (p : Path) (data : List Char) (perm : Nat) :
    (WriteFile w p data perm).2.trace = w.trace ++ [Call.writeFile p data perm] := by
  unfold WriteFile
  simp only
  split
  · rfl
  · split
    · rfl
    · split <;> rfl
    · split <;> rfl

/-- A successful `WriteFile` replaces the content at the path and leaves the
mode of an existing file as it was. -/
theorem WriteFile_ok (w : World) (p : Path) (data : List Char) (perm : Nat)
    (h : (WriteFile w p data perm).1 = none) :
    walk w.fs p = none ∧ (∀ mode, FS.get w.fs p ≠ some (Node.dir mode)) ∧
      (WriteFile w p data perm).2.fs =
        (p, Node.file (modeAfterWrite perm (FS.get w.fs p)) data) :: w.fs := by
  generalize hr : WriteFile w p data perm = r at h ⊢
  unfold WriteFile at hr
  simp only at hr
  split at hr
  · rw [← hr] at h; exact absurd h (by simp)
  · rename_i hw
    refine ⟨hw, ?_⟩
    split at hr
    · rw [← hr] at h; exact absurd h (by simp)
    · rename_i mode old hg
      split at hr
      · rw [← hr] at h; exact absurd h (by simp)
      · rw [← hr, hg]
        exact ⟨fun _ => by simp, rfl⟩
    · rename_i hg
      split at hr
      · rename_i fs2 hc
        rw [← hr, hg, (create_ok _ _ _ _ hc).1]
        exact ⟨fun _ => by simp, rfl⟩
      · rw [← hr] at h; exact absurd h (by simp)

theorem WriteFile_err (w : World) (p : Path) (data : List Char) (perm : Nat) (e : Error)
    (h : (WriteFile w p data perm).1 = some e) : (WriteFile w p data perm).2.fs = w.fs := by
  generalize hr : WriteFile w p data perm = r at h ⊢
  unfold WriteFile at hr
  simp only at hr
  split at hr
  · rw [← hr]
  · split at hr
    · rw [← hr]
    · split at hr
      · rw [← hr]
      · rw [← hr] at h; exact absurd h (by simp)
    · split at hr
      · rw [← hr] at h; exact absurd h (by simp)
      · rw [← hr]

/-! ## The methods `load` and `save` -/

theorem load_world (D : SortModeDecl) (m : settingsManager) (w : World) :
    (load D m w).2 = ⟨w.fs, w.trace ++ [Call.readFile m.filePath]⟩ := by
  have h := ReadFile_world w m.filePath
  unfold load
  simp only
  split
  · split <;> exact h
  · split
    · exact h
    · split <;> exact h

/-- The result of `load` from the result of the read. -/
theorem load_result (D : SortModeDecl) (m : settingsManager) (w : World) :
    (load D m w).1 =
      match (ReadFile w m.filePath).1.2 with
      | some err => if err.isNotExist then (⟨zeroValue D.kind⟩, none)
          else (⟨zeroValue D.kind⟩, some err)
      | none =>
        if (ReadFile w m.filePath).1.1.length = 0 then (⟨zeroValue D.kind⟩, none)
        else Unmarshal D.kind (ReadFile w m.filePath).1.1 ⟨zeroValue D.kind⟩ := by
  unfold load
  simp only
  cases (ReadFile w m.filePath).1.2 with
  | some err =>
    simp only
    split <;> rfl
  | none =>
    simp only
    split
    · rfl
    · cases hu : (Unmarshal D.kind (ReadFile w m.filePath).1.1 ⟨zeroValue D.kind⟩).2 with
      | some err => exact Prod.ext rfl hu.symm
      | none => exact Prod.ext rfl hu.symm

/-- When `load` reports no error in a well-formed filesystem, a file that is
there is readable by its owner. -/
theorem load_ok_readable (D : SortModeDecl) (m : settingsManager) (w : World)
    (hwf : w.fs.wellFormed = true) (h : (load D m w).1.2 = none) (mode : Nat) (data : List Char)
    (hg : FS.get w.fs m.filePath = some (Node.file mode data)) : mode &&& 0o400 ≠ 0 := by
  rw [load_result] at h
  split at h
  · rename_i err he
    split at h
    · rename_i hne
      rcases ReadFile_notExist_inv w m.filePath err he hne with h1 | h1
      · exact absurd h1 (walk_ne_ENOENT w.fs hwf m.filePath _ hg)
      · rw [hg] at h1
        exact absurd h1 (by simp)
    · exact absurd h (by simp)
  · rename_i he
    obtain ⟨_, mode2, hg2, hm⟩ := ReadFile_ok_inv w m.filePath he
    rw [hg] at hg2
    simp only [Option.some.injEq, Node.file.injEq] at hg2
    rw [hg2.1]
    exact hm

/-- A successful `save`: the directory was made, then the file written. -/
theorem save_ok (m : settingsManager) (settings : uiSettings) (w : World)
    (h : (save m settings w).1 = none) :
    (mkdirAllRev 0o750 m.filePath.dropLast.reverse w.fs).1 = none ∧
      walk (mkdirAllRev 0o750 m.filePath.dropLast.reverse w.fs).2 m.filePath = none ∧
      (∀ mode, FS.get (mkdirAllRev 0o750 m.filePath.dropLast.reverse w.fs).2 m.filePath ≠
        some (Node.dir mode)) ∧
      (save m settings w).2.fs =
        (m.filePath, Node.file
          (modeAfterWrite 0o600
            (FS.get (mkdirAllRev 0o750 m.filePath.dropLast.reverse w.fs).2 m.filePath))
          (MarshalIndent settings).1) ::
          (mkdirAllRev 0o750 m.filePath.dropLast.reverse w.fs).2 ∧
      (save m settings w).2.trace =
        w.trace ++ [Call.mkdirAll m.filePath.dropLast 0o750,
          Call.writeFile m.filePath (MarshalIndent settings).1 0o600] := by
  generalize hr : save m settings w = r at h ⊢
  unfold save MkdirAll at hr
  simp only [MarshalIndent_err] at hr
  split at hr
  · rw [← hr] at h
    exact absurd h (by simp)
  · rename_i hmk
    rw [← hr] at h ⊢
    obtain ⟨h1, h2, h3⟩ := WriteFile_ok _ _ _ _ h
    refine ⟨hmk, h1, h2, h3, ?_⟩
    rw [WriteFile_trace]
    simp

/-- A `save` to the root path cannot succeed. -/
theorem save_ok_ne_nil (m : settingsManager) (settings : uiSettings) (w : World)
    (h : (save m settings w).1 = none) : m.filePath ≠ [] := by
  obtain ⟨h1, _, h3, _, _⟩ := save_ok m settings w h
  intro hp
  rw [hp] at h1 h3
  simp only [List.dropLast_nil, List.reverse_nil] at h1 h3
  unfold mkdirAllRev at h1 h3
  split at h1
  · rename_i mode hst
    simp only [hst] at h3
    exact h3 mode (stat_ok _ _ _ hst).2
  · exact absurd h1 (by simp)
  · exact absurd h1 (by simp)

theorem length_dropLast_lt (p : Path) (h : p ≠ []) : p.dropLast.length < p.length := by
  cases p with
  | nil => exact absurd rfl h
  | cons c tl => simp [List.length_dropLast]

/-- The directory step of a successful `save` leaves the node at the file's
path as it was. -/
theorem save_ok_get (m : settingsManager) (settings : uiSettings) (w : World)
    (h : (save m settings w).1 = none) :
    FS.get (mkdirAllRev 0o750 m.filePath.dropLast.reverse w.fs).2 m.filePath =
      FS.get w.fs m.filePath := by
  apply mkdirAllRev_get
  rw [List.length_reverse]
  exact length_dropLast_lt _ (save_ok_ne_nil m settings w h)

theorem SaveSortMode_ok (D : SortModeDecl) (m : settingsManager) (mode : SortMode) (w : World)
    (h : (SaveSortMode D (some m) mode w).1 = none) :
    (load D m w).1.2 = none ∧
      SaveSortMode D (some m) mode w =
        save m ⟨mode⟩ ⟨w.fs, w.trace ++ [Call.readFile m.filePath]⟩ := by
  unfold SaveSortMode at h ⊢
  simp only at h ⊢
  split at h
  · exact absurd h (by simp)
  · rename_i he
    simp only [he, load_world]
    trivial

end LazySSH

namespace LazySSH

/-! ## The claims about `LoadSortMode` and `SaveSortMode` -/

/-- The result of `LoadSortMode` from the result of `load`. -/
theorem LoadSortMode_result (D : SortModeDecl) (m : settingsManager) (w : World) :
    (LoadSortMode D (some m) w).1 =
      match (load D m w).1.2 with
      | some err => (D.SortByAliasAsc, some err)
      | none =>
        if D.valid (load D m w).1.1.SortMode then ((load D m w).1.1.SortMode, none)
        else (D.SortByAliasAsc, none) := by
  unfold LoadSortMode
  simp only
  cases (load D m w).1.2 with
  | some err => rfl
  | none =>
    simp only
    cases D.valid (load D m w).1.1.SortMode <;> rfl

/-- C3. Whatever the receiver and the filesystem, the value `LoadSortMode`
returns is `SortByAliasAsc`, or it is a value `valid` accepts and the one
`load` read from the document; so if `SortByAliasAsc` is valid, the returned
value always is, with or without an error. -/
theorem load_never_surfaces_invalid (D : SortModeDecl) (m : Option settingsManager) (w : World) :
    ((LoadSortMode D m w).1.1 = D.SortByAliasAsc ∨
      (D.valid (LoadSortMode D m w).1.1 = true ∧
        ∃ m0, m = some m0 ∧ (load D m0 w).1.2 = none ∧
          (load D m0 w).1.1.SortMode = (LoadSortMode D m w).1.1)) ∧
    (D.valid D.SortByAliasAsc = true → D.valid (LoadSortMode D m w).1.1 = true) := by
  have key : (LoadSortMode D m w).1.1 = D.SortByAliasAsc ∨
      (D.valid (LoadSortMode D m w).1.1 = true ∧
        ∃ m0, m = some m0 ∧ (load D m0 w).1.2 = none ∧
          (load D m0 w).1.1.SortMode = (LoadSortMode D m w).1.1) := by
    cases m with
    | none => exact Or.inl rfl
    | some m0 =>
      rw [LoadSortMode_result]
      cases he : (load D m0 w).1.2 with
      | some err => exact Or.inl rfl
      | none =>
        simp only
        split
        · rename_i hv
          exact Or.inr ⟨hv, m0, rfl, he, rfl⟩
        · exact Or.inl rfl
  refine ⟨key, fun hd => ?_⟩
  rcases key with h | h
  · rw [h]; exact hd
  · exact h.1

/-- C4. If reading the settings file fails with an error that matches
`os.ErrNotExist`, or succeeds with zero bytes, then `load` returns the empty
document with a nil error and `LoadSortMode` returns `(SortByAliasAsc, nil)`. -/
theorem missing_or_empty_file_is_default (D : SortModeDecl) (m : settingsManager) (w : World)
    (h : (∃ e, (ReadFile w m.filePath).1.2 = some e ∧ e.isNotExist = true) ∨
      (ReadFile w m.filePath).1 = ([], none)) :
    (load D m w).1 = (⟨zeroValue D.kind⟩, none) ∧
      (LoadSortMode D (some m) w).1 = (D.SortByAliasAsc, none) := by
  have hl : (load D m w).1 = (⟨zeroValue D.kind⟩, none) := by
    rw [load_result]
    rcases h with ⟨e, he, hne⟩ | h
    · simp [he, hne]
    · simp [h]
  refine ⟨hl, ?_⟩
  rw [LoadSortMode_result, hl]
  simp only
  split
  · rename_i hv
    rw [D.zero_unset hv]
  · rfl

/-- C5. For a non-nil manager `LoadSortMode` returns an error exactly when
reading the file fails with an error other than "does not exist", or the file
is read, is not empty and `json.Unmarshal` fails on it; the error returned is
that very error, and the value returned with it is `SortByAliasAsc`. -/
theorem load_error_iff_read_or_parse_fails (D : SortModeDecl) (m : settingsManager) (w : World) :
    ((LoadSortMode D (some m) w).1.2 ≠ none ↔
      ((∃ e, (ReadFile w m.filePath).1.2 = some e ∧ e.isNotExist = false) ∨
        ((ReadFile w m.filePath).1.2 = none ∧ (ReadFile w m.filePath).1.1 ≠ [] ∧
          (Unmarshal D.kind (ReadFile w m.filePath).1.1 ⟨zeroValue D.kind⟩).2 ≠ none))) ∧
    (∀ e, (ReadFile w m.filePath).1.2 = some e → e.isNotExist = false →
      (LoadSortMode D (some m) w).1 = (D.SortByAliasAsc, some e)) ∧
    (∀ e, (ReadFile w m.filePath).1.2 = none → (ReadFile w m.filePath).1.1 ≠ [] →
      (Unmarshal D.kind (ReadFile w m.filePath).1.1 ⟨zeroValue D.kind⟩).2 = some e →
      (LoadSortMode D (some m) w).1 = (D.SortByAliasAsc, some e)) := by
  rw [LoadSortMode_result, load_result]
  cases hr : (ReadFile w m.filePath).1.2 with
  | some err =>
    cases hn : err.isNotExist with
    | true =>
      simp only [hn, if_true]
      refine ⟨?_, ?_, ?_⟩
      · constructor
        · intro h
          split at h <;> exact absurd rfl h
        · rintro (⟨e, he, hf⟩ | ⟨h, _⟩)
          · simp only [Option.some.injEq] at he
            rw [← he, hn] at hf
            exact absurd hf (by simp)
          · exact absurd h (by simp)
      · intro e he hf
        simp only [Option.some.injEq] at he
        rw [← he, hn] at hf
        exact absurd hf (by simp)
      · intro e he
        exact absurd he (by simp)
    | false =>
      simp only [hn]
      refine ⟨?_, ?_, ?_⟩
      · constructor
        · intro _
          exact Or.inl ⟨err, rfl, hn⟩
        · intro _
          simp
      · intro e he _
        simp only [Option.some.injEq] at he
        rw [he]
        rfl
      · intro e he
        exact absurd he (by simp)
  | none =>
    by_cases hl : (ReadFile w m.filePath).1.1 = []
    · simp only [hl, List.length_nil, if_true]
      refine ⟨?_, ?_, ?_⟩
      · constructor
        · intro h
          split at h <;> exact absurd rfl h
        · rintro (⟨e, he, _⟩ | ⟨_, h, _⟩)
          · exact absurd he (by simp)
          · exact absurd rfl h
      · intro e he
        exact absurd he (by simp)
      · intro e _ h
        exact absurd rfl h
    · have hlen : ¬ (ReadFile w m.filePath).1.1.length = 0 := by
        intro h
        exact hl (List.length_eq_zero.mp h)
      simp only [hlen, if_false]
      cases hu : (Unmarshal D.kind (ReadFile w m.filePath).1.1 ⟨zeroValue D.kind⟩).2 with
      | some ue =>
        simp only
        refine ⟨?_, ?_, ?_⟩
        · constructor
          · intro _
            exact Or.inr ⟨trivial, hl, by simp⟩
          · intro _
            simp
        · intro e he
          exact absurd he (by simp)
        · intro e _ _ he
          simp only [Option.some.injEq] at he
          rw [he]
      | none =>
        simp only
        refine ⟨?_, ?_, ?_⟩
        · constructor
          · intro h
            split at h <;> exact absurd rfl h
          · rintro (⟨e, he, _⟩ | ⟨_, _, h⟩)
            · exact absurd he (by simp)
            · exact absurd rfl h
        · intro e he
          exact absurd he (by simp)
        · intro e _ _ he
          exact absurd he (by simp)

/-- C6. When construction fails the manager is nil; then, whatever the
filesystem and the mode, `LoadSortMode` returns `SortByAliasAsc` with a non-nil
error and `SaveSortMode` returns a non-nil error, and neither touches the
world: the filesystem is unchanged and no call into the os package is made. -/
theorem nil_manager_does_nothing (D : SortModeDecl) (mode : SortMode) (w : World) (e : Error) :
    (newSettingsManager (Except.error e)).1 = none ∧
      (LoadSortMode D none w).1.1 = D.SortByAliasAsc ∧
      (LoadSortMode D none w).1.2 ≠ none ∧
      (LoadSortMode D none w).2 = w ∧
      (SaveSortMode D none mode w).1 ≠ none ∧
      (SaveSortMode D none mode w).2 = w :=
  ⟨rfl, rfl, by simp [LoadSortMode], rfl, by simp [SaveSortMode], rfl⟩

/-- C10. If the read that `SaveSortMode` starts with fails (`load` returns an
error: the file is unreadable, or not empty and not a document), then
`SaveSortMode` returns that same error and the filesystem is exactly as
before: the only call made is the read, no directory is made and nothing is
written. -/
theorem save_after_failed_read_changes_nothing (D : SortModeDecl) (m : settingsManager)
    (mode : SortMode) (w : World) (e : Error) (h : (load D m w).1.2 = some e) :
    (SaveSortMode D (some m) mode w).1 = some e ∧
      (SaveSortMode D (some m) mode w).2.fs = w.fs ∧
      (SaveSortMode D (some m) mode w).2.trace = w.trace ++ [Call.readFile m.filePath] := by
  have hw := load_world D m w
  unfold SaveSortMode
  simp only [h]
  rw [hw]
  exact ⟨trivial, rfl, rfl⟩

end LazySSH

namespace LazySSH

/-- After a successful `SaveSortMode` the settings file holds what
`MarshalIndent` wrote, with the mode of the file it replaced or 0o600 when
it is new, and can be read. -/
theorem SaveSortMode_ok_file (D : SortModeDecl) (m : settingsManager) (v : SortMode) (w : World)
    (hs : (SaveSortMode D (some m) v w).1 = none) :
    FS.get (SaveSortMode D (some m) v w).2.fs m.filePath =
        some (Node.file (modeAfterWrite 0o600 (FS.get w.fs m.filePath)) (MarshalIndent ⟨v⟩).1) ∧
      walk (SaveSortMode D (some m) v w).2.fs m.filePath = none ∧
      (∀ mode, FS.get w.fs m.filePath ≠ some (Node.dir mode)) := by
  obtain ⟨_, hsave⟩ := SaveSortMode_ok D m v w hs
  rw [hsave] at hs ⊢
  obtain ⟨_, hwalk, hnd, hfs, _⟩ := save_ok m ⟨v⟩ _ hs
  have hget := save_ok_get m ⟨v⟩ _ hs
  simp only at hget hwalk hnd hfs
  rw [hget] at hfs hnd
  refine ⟨?_, ?_, hnd⟩
  · rw [hfs]
    exact get_cons_self _ _ _
  · rw [hfs, walk_cons _ _ _ _ (le_refl _)]
    exact hwalk

/-- C1. Save then load: for a non-nil manager, a value `v` of the type that
`valid` accepts (the zero value included) and a well-formed filesystem in
which `SaveSortMode(v)` returns nil, `LoadSortMode` on the resulting state
returns `(v, nil)`. -/
theorem save_then_load_returns_value (D : SortModeDecl) (m : settingsManager) (v : SortMode)
    (w : World) (hwf : w.fs.wellFormed = true) (hk : v.hasKind D.kind = true)
    (hv : D.valid v = true) (hs : (SaveSortMode D (some m) v w).1 = none) :
    (LoadSortMode D (some m) (SaveSortMode D (some m) v w).2).1 = (v, none) := by
  obtain ⟨hg, hwalk, hnd⟩ := SaveSortMode_ok_file D m v w hs
  obtain ⟨hl, _⟩ := SaveSortMode_ok D m v w hs
  have hbit : modeAfterWrite 0o600 (FS.get w.fs m.filePath) &&& 0o400 ≠ 0 := by
    cases hold : FS.get w.fs m.filePath with
    | none => decide
    | some n =>
      cases n with
      | dir mode => exact absurd hold (hnd mode)
      | file mode data => exact load_ok_readable D m w hwf hl mode data hold
  have hread := ReadFile_file _ _ _ _ hwalk hg hbit
  have hne := MarshalIndent_ne_nil ⟨v⟩
  have hlen : ¬ (MarshalIndent ⟨v⟩).1.length = 0 := fun h => hne (List.length_eq_zero.mp h)
  rw [LoadSortMode_result, load_result, hread]
  simp only [hlen, if_false, Unmarshal_MarshalIndent D.kind v hk, hv, if_true]

/-- C8, as the code has it. After a successful `SaveSortMode` the content of
the settings file is exactly the newly serialized document; its mode is 0o600
when the save created the file, and the mode it already had when the file
existed. -/
theorem save_replaces_content_keeps_mode (D : SortModeDecl) (m : settingsManager) (v : SortMode)
    (w : World) (hs : (SaveSortMode D (some m) v w).1 = none) :
    FS.get (SaveSortMode D (some m) v w).2.fs m.filePath =
        some (Node.file (modeAfterWrite 0o600 (FS.get w.fs m.filePath)) (MarshalIndent ⟨v⟩).1) ∧
      (FS.get w.fs m.filePath = none →
        modeAfterWrite 0o600 (FS.get w.fs m.filePath) = 0o600) ∧
      (∀ mode data, FS.get w.fs m.filePath = some (Node.file mode data) →
        modeAfterWrite 0o600 (FS.get w.fs m.filePath) = mode) := by
  refine ⟨(SaveSortMode_ok_file D m v w hs).1, ?_, ?_⟩
  · intro h
    rw [h]
    rfl
  · intro mode data h
    rw [h]
    rfl

/-- C8 as stated fails: saving over a settings file of mode 0o644 succeeds and
leaves the file with mode 0o644, not 0o600. -/
theorem save_keeps_broader_mode :
    ¬ ∀ (D : SortModeDecl) (m : settingsManager) (v : SortMode) (w : World),
      (SaveSortMode D (some m) v w).1 = none →
      ∃ data, FS.get (SaveSortMode D (some m) v w).2.fs m.filePath =
        some (Node.file 0o600 data) := by
  intro h
  obtain ⟨data, hd⟩ := h fourModes homeManager (SortMode.int 1)
    ⟨fsWithFile 0o644 "\x7b\x7d", []⟩ (by decide)
  have hm : FS.get (SaveSortMode fourModes (some homeManager) (SortMode.int 1)
      ⟨fsWithFile 0o644 "\x7b\x7d", []⟩).2.fs homeManager.filePath =
      some (Node.file 0o644 "\x7b\n  \"sort_mode\": 1\n\x7d".toList) := by decide
  rw [hm] at hd
  simp at hd

/-- C7, as the code has it. `save` asks `MkdirAll` for mode 0o750: all bits
for the owner, read and search for the group, nothing for others. After a
successful `SaveSortMode` that found no settings directory, the directory is
there with mode 0o750, and so is every ancestor the save had to make. -/
theorem save_creates_directory_0750 (D : SortModeDecl) (m : settingsManager) (v : SortMode)
    (w : World) (hs : (SaveSortMode D (some m) v w).1 = none)
    (hnew : FS.get w.fs m.filePath.dropLast = none) :
    FS.get (SaveSortMode D (some m) v w).2.fs m.filePath.dropLast = some (Node.dir 0o750) ∧
      (∀ q mode, FS.get w.fs q = none →
        FS.get (SaveSortMode D (some m) v w).2.fs q = some (Node.dir mode) → mode = 0o750) ∧
      Call.mkdirAll m.filePath.dropLast 0o750 ∈ (SaveSortMode D (some m) v w).2.trace ∧
      0o750 &&& 0o700 = 0o700 ∧ 0o750 &&& 0o070 = 0o050 ∧ 0o750 &&& 0o007 = 0 := by
  obtain ⟨_, hsave⟩ := SaveSortMode_ok D m v w hs
  rw [hsave] at hs ⊢
  obtain ⟨hmk, _, _, hfs, htr⟩ := save_ok m ⟨v⟩ _ hs
  simp only at hmk hfs htr
  have hne : m.filePath ≠ m.filePath.dropLast := by
    intro e
    have hl := length_dropLast_lt _ (save_ok_ne_nil m ⟨v⟩ _ hs)
    rw [← e] at hl
    exact absurd hl (lt_irrefl _)
  have hcr := mkdirAllRev_created 0o750 m.filePath.dropLast.reverse w.fs hmk
    (by rw [List.reverse_reverse]; exact hnew)
  rw [List.reverse_reverse] at hcr
  refine ⟨?_, ?_, ?_, by decide, by decide, by decide⟩
  · rw [hfs, get_cons_of_ne _ _ _ _ hne]
    exact hcr
  · intro q mode hq hd
    rw [hfs, get_cons] at hd
    split at hd
    · simp at hd
    · rcases mkdirAllRev_get_new 0o750 m.filePath.dropLast.reverse w.fs q with h | h
      · rw [h, hq] at hd
        exact absurd hd (by simp)
      · rw [h] at hd
        simp only [Option.some.injEq, Node.dir.injEq] at hd
        exact hd.symm
  · rw [htr]
    simp

/-- C7 as stated fails: a save into a fresh home directory succeeds, has to
make the settings directory, and leaves it with a mode that grants bits to
the group (0o750 AND 0o077 is 0o050). -/
theorem save_directory_not_owner_only :
    ¬ ∀ (D : SortModeDecl) (m : settingsManager) (v : SortMode) (w : World),
      (SaveSortMode D (some m) v w).1 = none →
      FS.get w.fs m.filePath.dropLast = none →
      ∀ mode, FS.get (SaveSortMode D (some m) v w).2.fs m.filePath.dropLast =
        some (Node.dir mode) → mode &&& 0o077 = 0 := by
  intro h
  have h1 := h fourModes homeManager (SortMode.int 1) ⟨freshFS, []⟩ (by decide) (by decide)
    0o750 (by decide)
  exact absurd h1 (by decide)

end LazySSH

namespace LazySSH

theorem decodeMembers_append (kind : GoKind) (a b : List (List Char × JSON)) :
    ∀ st, decodeMembers kind (a ++ b) st = decodeMembers kind b (decodeMembers kind a st) := by
  induction a with
  | nil => intro st; rfl
  | cons kv tl ih =>
    intro st
    obtain ⟨k, j⟩ := kv
    simp only [List.cons_append, decodeMembers]
    split
    · exact ih _
    · exact ih _

/-- Whether a value fits the field does not depend on what the field holds. -/
theorem storeField_error (kind : GoKind) (j : JSON) (cur cur2 : SortMode) :
    (storeField kind j cur).2 = (storeField kind j cur2).2 := by
  cases j with
  | null => rfl
  | bool b => rfl
  | num lit =>
    cases kind with
    | int =>
      simp only [storeField]
      cases ParseInt lit <;> rfl
    | string => rfl
  | str s => cases kind <;> rfl
  | arr es => rfl
  | obj ms => rfl

/-- Members that select the field only with `null` leave the document as it is. -/
theorem decodeMembers_nulls (kind : GoKind) (ms : List (List Char × JSON))
    (h : ∀ kv ∈ ms, matchesField kv.1 = true → kv.2 = JSON.null) :
    ∀ st, decodeMembers kind ms st = st := by
  induction ms with
  | nil => intro st; rfl
  | cons kv tl ih =>
    intro st
    obtain ⟨k, j⟩ := kv
    have htl := ih (fun x hx => h x (List.mem_cons_of_mem _ hx))
    simp only [decodeMembers]
    split
    · rename_i hk
      have hj : j = JSON.null := h (k, j) (List.mem_cons_self _ _) hk
      rw [hj, htl]
      obtain ⟨doc, err⟩ := st
      cases err <;> rfl
    · exact htl st

/-- Members whose values all fit the field add no error. -/
theorem decodeMembers_no_error (kind : GoKind) (ms : List (List Char × JSON))
    (h : ∀ kv ∈ ms, matchesField kv.1 = true → (storeField kind kv.2 (zeroValue kind)).2 = none) :
    ∀ st, (decodeMembers kind ms st).2 = st.2 := by
  induction ms with
  | nil => intro st; rfl
  | cons kv tl ih =>
    intro st
    obtain ⟨k, j⟩ := kv
    have htl := ih (fun x hx => h x (List.mem_cons_of_mem _ hx))
    simp only [decodeMembers]
    split
    · rename_i hk
      have hj := h (k, j) (List.mem_cons_self _ _) hk
      rw [htl, storeField_error kind j st.1.SortMode (zeroValue kind), hj]
      cases st.2 <;> rfl
    · exact htl st

/-- An error, once kept, stays. -/
theorem decodeMembers_error_stays (kind : GoKind) (ms : List (List Char × JSON)) :
    ∀ st, st.2 ≠ none → (decodeMembers kind ms st).2 ≠ none := by
  induction ms with
  | nil => intro st h; exact h
  | cons kv tl ih =>
    intro st h
    obtain ⟨k, j⟩ := kv
    simp only [decodeMembers]
    split
    · apply ih
      cases hs : st.2 with
      | none => exact absurd hs h
      | some e => simp [Option.orElse]
    · exact ih st h

/-- A member that selects the field with a value that does not fit leaves an error. -/
theorem decodeMembers_error (kind : GoKind) (ms : List (List Char × JSON))
    (h : ∃ kv ∈ ms, matchesField kv.1 = true ∧
      (storeField kind kv.2 (zeroValue kind)).2 ≠ none) :
    ∀ st, (decodeMembers kind ms st).2 ≠ none := by
  induction ms with
  | nil =>
    obtain ⟨kv, hkv, _⟩ := h
    exact absurd hkv (List.not_mem_nil _)
  | cons x tl ih =>
    intro st
    obtain ⟨k, j⟩ := x
    obtain ⟨kv, hkv, hm, he⟩ := h
    simp only [decodeMembers]
    rcases List.mem_cons.mp hkv with hx | hx
    · rw [hx] at hm he
      simp only at hm he
      rw [if_pos hm]
      apply decodeMembers_error_stays
      simp only
      rw [storeField_error kind j st.1.SortMode (zeroValue kind)]
      cases hs : st.2 with
      | none =>
        cases hr : (storeField kind j (zeroValue kind)).2 with
        | none => exact absurd hr he
        | some e => simp [Option.orElse]
      | some e => simp [Option.orElse]
    · split
      · exact ih ⟨kv, hx, hm, he⟩ _
      · exact ih ⟨kv, hx, hm, he⟩ _

/-- C2, as the code has it. Take a non-nil manager and a settings file whose
content is a JSON object. A key counts as `sort_mode` when it matches exactly
or ignoring case, as encoding/json matches keys. If every value under such a
key decodes into `SortMode` without error (`null` included, which leaves the
field alone), and either every such value is `null` (or there is no such
key), or the last one that is not `null` decodes to a value `valid` rejects,
then `LoadSortMode` returns `(SortByAliasAsc, nil)`. If some value under such
a key does not decode into `SortMode` (a JSON string for a type of integer
kind), it returns `SortByAliasAsc` with a non-nil error instead. -/
theorem absent_or_rejected_mode_is_default (D : SortModeDecl) (m : settingsManager) (w : World)
    (data : List Char) (members : List (List Char × JSON))
    (hread : (ReadFile w m.filePath).1 = (data, none))
    (hobj : parseJSON data = some (JSON.obj members)) :
    ((∀ kv ∈ members, matchesField kv.1 = true →
          (storeField D.kind kv.2 (zeroValue D.kind)).2 = none) →
        ((∀ kv ∈ members, matchesField kv.1 = true → kv.2 = JSON.null) ∨
          ∃ before key value after s, members = before ++ (key, value) :: after ∧
            matchesField key = true ∧
            (∀ kv ∈ after, matchesField kv.1 = true → kv.2 = JSON.null) ∧
            (∀ cur, storeField D.kind value cur = (s, none)) ∧ D.valid s = false) →
        (LoadSortMode D (some m) w).1 = (D.SortByAliasAsc, none)) ∧
    ((∃ kv ∈ members, matchesField kv.1 = true ∧
          (storeField D.kind kv.2 (zeroValue D.kind)).2 ≠ none) →
        (LoadSortMode D (some m) w).1.1 = D.SortByAliasAsc ∧
          (LoadSortMode D (some m) w).1.2 ≠ none) := by
  have hne : ¬ data.length = 0 := by
    intro h
    have h0 : data = [] := List.length_eq_zero.mp h
    have hnil : parseJSON [] = none := rfl
    rw [h0, hnil] at hobj
    exact absurd hobj (by simp)
  have hu : Unmarshal D.kind data ⟨zeroValue D.kind⟩ =
      decodeMembers D.kind members (⟨zeroValue D.kind⟩, none) := by
    unfold Unmarshal
    rw [hobj]
  rw [LoadSortMode_result, load_result, hread]
  simp only [hne, if_false, hu]
  constructor
  · intro hok hfinal
    rcases hfinal with h | ⟨before, key, value, after, s, hm, hk, ha, hst, hv⟩
    · rw [decodeMembers_nulls D.kind members h]
      simp only
      split
      · rename_i hz
        rw [D.zero_unset hz]
      · rfl
    · have hb := decodeMembers_no_error D.kind before
        (fun kv hkv => hok kv (by rw [hm]; exact List.mem_append_left _ hkv))
        (⟨zeroValue D.kind⟩, none)
      simp only at hb
      rw [hm, decodeMembers_append]
      simp only [decodeMembers, hk, if_true, hst, hb]
      rw [decodeMembers_nulls D.kind after ha]
      simp [Option.orElse, hv]
  · intro hbad
    have he := decodeMembers_error D.kind members hbad (⟨zeroValue D.kind⟩, none)
    cases hr : (decodeMembers D.kind members (⟨zeroValue D.kind⟩, none)).2 with
    | none => exact absurd hr he
    | some e => simp

/-- C2 as stated fails. A file whose only key is `SORT_MODE` has no `sort_mode`
key, yet the mode it carries is loaded, not the default; and with a
`SortMode` of integer kind the file with `sort_mode` set to the string
`not-a-real-mode` gives the default with an error, not with nil. -/
theorem absent_key_or_rejected_value_not_default :
    (¬ ∀ (D : SortModeDecl) (m : settingsManager) (w : World) (data : List Char)
        (members : List (List Char × JSON)),
        (ReadFile w m.filePath).1 = (data, none) →
        parseJSON data = some (JSON.obj members) →
        (∀ kv ∈ members, kv.1 ≠ "sort_mode".toList) →
        (LoadSortMode D (some m) w).1 = (D.SortByAliasAsc, none)) ∧
    (LoadSortMode fourModes (some homeManager)
      ⟨fsWithFile 0o600 "\x7b\"sort_mode\": \"not-a-real-mode\"\x7d", []⟩).1 =
      (SortMode.int 0, some (Error.unmarshalType "string" "sort_mode")) := by
  refine ⟨fun h => ?_, by decide⟩
  have h1 := h fourModes homeManager ⟨fsWithFile 0o600 "\x7b\"SORT_MODE\": 1\x7d", []⟩
    "\x7b\"SORT_MODE\": 1\x7d".toList [("SORT_MODE".toList, JSON.num ['1'])]
    (by decide) rfl
    (by
      intro kv hkv
      rw [List.mem_singleton] at hkv
      rw [hkv]
      decide)
  exact absurd h1 (by decide)

theorem indentObject_documentOf (kind : GoKind) (v : SortMode) (hk : v.hasKind kind = true) :
    indentObject (documentOf kind v) = (MarshalIndent ⟨v⟩).1 := by
  unfold documentOf MarshalIndent
  by_cases he : isEmptyValue v = true
  · have hz := eq_zeroValue_of_isEmptyValue kind v hk he
    simp only [hz, if_true]
    cases kind <;> rfl
  · have hz : v ≠ zeroValue kind := by
      intro e
      rw [e] at he
      cases kind <;> exact absurd he (by decide)
    simp only [hz, he, if_false]
    simp [indentObject, List.intercalate, List.intersperse]

/-- C9. For a non-nil manager and a value `v` of the type, whatever two
states `SaveSortMode(v)` succeeds in, the settings file afterwards holds the
same text in both: the two-space-indented serialization of the document whose
only possible member is `sort_mode` = `v`, left out when `v` is the zero
value. That text is a JSON object with no key other than `sort_mode`, so no
other key of the file that was there survives. -/
theorem save_output_is_deterministic (D : SortModeDecl) (m : settingsManager) (v : SortMode)
    (w1 w2 : World) (hk : v.hasKind D.kind = true)
    (h1 : (SaveSortMode D (some m) v w1).1 = none)
    (h2 : (SaveSortMode D (some m) v w2).1 = none) :
    (∃ mode1 mode2,
      FS.get (SaveSortMode D (some m) v w1).2.fs m.filePath =
        some (Node.file mode1 (indentObject (documentOf D.kind v))) ∧
      FS.get (SaveSortMode D (some m) v w2).2.fs m.filePath =
        some (Node.file mode2 (indentObject (documentOf D.kind v)))) ∧
    parseJSON (indentObject (documentOf D.kind v)) = some (JSON.obj (membersOf ⟨v⟩)) ∧
    ∀ kv ∈ membersOf ⟨v⟩, kv.1 = "sort_mode".toList := by
  rw [indentObject_documentOf D.kind v hk]
  refine ⟨⟨_, _, (SaveSortMode_ok_file D m v w1 h1).1, (SaveSortMode_ok_file D m v w2 h2).1⟩,
    parseJSON_MarshalIndent ⟨v⟩, ?_⟩
  intro kv hkv
  unfold membersOf at hkv
  split at hkv
  · exact absurd hkv (by simp)
  · rw [List.mem_singleton] at hkv
    rw [hkv]

end LazySSH

namespace LazySSH

/-! ## The decoder and the reader at the edges of the claims -/

/-- An empty settings file that its owner may not read is a read error, not
the empty-file case: the length of the content is looked at only after a
successful read. -/
theorem unreadable_empty_file_is_error :
    (LoadSortMode fourModes (some homeManager) ⟨fsWithFile 0o200 "", []⟩).1 =
      (SortMode.int 0, some (Error.pathError "open" homeManager.filePath Errno.EACCES)) := by
  decide

/-- Of two members that select the field the later one wins. -/
theorem later_member_wins :
    (LoadSortMode fourModes (some homeManager)
      ⟨fsWithFile 0o600 "\x7b\"sort_mode\": 9, \"sort_mode\": 2\x7d", []⟩).1 =
      (SortMode.int 2, none) := by
  decide

end LazySSH

namespace LazySSH

/-! ## The theorems at concrete inputs -/

/-- C1 at concrete inputs: a first save into a fresh home directory, a save
of the zero value over an existing file, and a save of a named mode. -/
theorem save_then_load_returns_value_witness :
    ((SaveSortMode fourModes (some homeManager) (SortMode.int 2) ⟨freshFS, []⟩).1 = none ∧
      (LoadSortMode fourModes (some homeManager)
        (SaveSortMode fourModes (some homeManager) (SortMode.int 2) ⟨freshFS, []⟩).2).1 =
        (SortMode.int 2, none)) ∧
    ((SaveSortMode fourModes (some homeManager) (SortMode.int 0)
        ⟨fsWithFile 0o600 "\x7b\"sort_mode\": 3\x7d", []⟩).1 = none ∧
      (LoadSortMode fourModes (some homeManager)
        (SaveSortMode fourModes (some homeManager) (SortMode.int 0)
          ⟨fsWithFile 0o600 "\x7b\"sort_mode\": 3\x7d", []⟩).2).1 = (SortMode.int 0, none)) ∧
    (LoadSortMode namedModes (some homeManager)
        (SaveSortMode namedModes (some homeManager) (SortMode.str "alias_desc".toList)
          ⟨freshFS, []⟩).2).1 = (SortMode.str "alias_desc".toList, none) :=
  ⟨⟨by decide,
      save_then_load_returns_value fourModes homeManager (SortMode.int 2) ⟨freshFS, []⟩
        (by decide) (by decide) (by decide) (by decide)⟩,
    ⟨by decide,
      save_then_load_returns_value fourModes homeManager (SortMode.int 0)
        ⟨fsWithFile 0o600 "\x7b\"sort_mode\": 3\x7d", []⟩
        (by decide) (by decide) (by decide) (by decide)⟩,
    save_then_load_returns_value namedModes homeManager (SortMode.str "alias_desc".toList)
      ⟨freshFS, []⟩ (by decide) (by decide) (by decide) (by decide)⟩

/-- C2 as amended, at concrete inputs: the empty object for an enumeration of
integer kind; the name `not-a-real-mode` for one of string kind; three keys
that all count as `sort_mode`, the last value that is not `null` being out of
range; and, for the integer kind, a string, which is an error. -/
theorem absent_or_rejected_mode_is_default_witness :
    (LoadSortMode fourModes (some homeManager) ⟨fsWithFile 0o600 "\x7b\x7d", []⟩).1 =
        (SortMode.int 0, none) ∧
    (LoadSortMode namedModes (some homeManager)
        ⟨fsWithFile 0o600 "\x7b\"sort_mode\": \"not-a-real-mode\"\x7d", []⟩).1 =
        (SortMode.str "alias_asc".toList, none) ∧
    (LoadSortMode fourModes (some homeManager)
        ⟨fsWithFile 0o600 "\x7b\"sort_mode\": 1, \"Sort_Mode\": 9, \"SORT_MODE\": null\x7d",
          []⟩).1 = (SortMode.int 0, none) ∧
    ((LoadSortMode fourModes (some homeManager)
        ⟨fsWithFile 0o600 "\x7b\"sort_mode\": \"not-a-real-mode\"\x7d", []⟩).1.1 =
        SortMode.int 0 ∧
      (LoadSortMode fourModes (some homeManager)
        ⟨fsWithFile 0o600 "\x7b\"sort_mode\": \"not-a-real-mode\"\x7d", []⟩).1.2 ≠ none) :=
  ⟨(absent_or_rejected_mode_is_default fourModes homeManager
      ⟨fsWithFile 0o600 "\x7b\x7d", []⟩ "\x7b\x7d".toList [] (by decide) rfl).1
      (fun _ h => absurd h (List.not_mem_nil _))
      (Or.inl (fun _ h => absurd h (List.not_mem_nil _))),
    (absent_or_rejected_mode_is_default namedModes homeManager
      ⟨fsWithFile 0o600 "\x7b\"sort_mode\": \"not-a-real-mode\"\x7d", []⟩
      "\x7b\"sort_mode\": \"not-a-real-mode\"\x7d".toList
      [("sort_mode".toList, JSON.str "not-a-real-mode".toList)] (by decide) rfl).1
      (by
        intro kv hkv _
        rw [List.mem_singleton] at hkv
        rw [hkv]
        rfl)
      (Or.inr ⟨[], "sort_mode".toList, JSON.str "not-a-real-mode".toList, [],
        SortMode.str "not-a-real-mode".toList, rfl, by decide,
        fun _ h => absurd h (List.not_mem_nil _), fun _ => rfl, by decide⟩),
    (absent_or_rejected_mode_is_default fourModes homeManager
      ⟨fsWithFile 0o600 "\x7b\"sort_mode\": 1, \"Sort_Mode\": 9, \"SORT_MODE\": null\x7d", []⟩
      "\x7b\"sort_mode\": 1, \"Sort_Mode\": 9, \"SORT_MODE\": null\x7d".toList
      [("sort_mode".toList, JSON.num ['1']), ("Sort_Mode".toList, JSON.num ['9']),
        ("SORT_MODE".toList, JSON.null)] (by decide) rfl).1
      (by
        intro kv hkv _
        simp only [List.mem_cons, List.mem_singleton, List.not_mem_nil, or_false] at hkv
        rcases hkv with h | h | h <;> (rw [h]; rfl))
      (Or.inr ⟨[("sort_mode".toList, JSON.num ['1'])], "Sort_Mode".toList, JSON.num ['9'],
        [("SORT_MODE".toList, JSON.null)], SortMode.int 9, rfl, by decide,
        (by
          intro kv hkv _
          rw [List.mem_singleton] at hkv
          rw [hkv]),
        fun _ => rfl, by decide⟩),
    (absent_or_rejected_mode_is_default fourModes homeManager
      ⟨fsWithFile 0o600 "\x7b\"sort_mode\": \"not-a-real-mode\"\x7d", []⟩
      "\x7b\"sort_mode\": \"not-a-real-mode\"\x7d".toList
      [("sort_mode".toList, JSON.str "not-a-real-mode".toList)] (by decide) rfl).2
      ⟨("sort_mode".toList, JSON.str "not-a-real-mode".toList), List.mem_singleton.mpr rfl,
        by decide, by decide⟩⟩

/-- C4 at concrete inputs: no settings file in a fresh home directory, and a
settings file of zero bytes. -/
theorem missing_or_empty_file_is_default_witness :
    ((ReadFile ⟨freshFS, []⟩ homeManager.filePath).1.2 =
        some (Error.pathError "open" homeManager.filePath Errno.ENOENT) ∧
      (LoadSortMode fourModes (some homeManager) ⟨freshFS, []⟩).1 = (SortMode.int 0, none)) ∧
    ((ReadFile ⟨fsWithFile 0o600 "", []⟩ homeManager.filePath).1 = ([], none) ∧
      (LoadSortMode fourModes (some homeManager) ⟨fsWithFile 0o600 "", []⟩).1 =
        (SortMode.int 0, none)) :=
  ⟨⟨by decide,
      (missing_or_empty_file_is_default fourModes homeManager ⟨freshFS, []⟩
        (Or.inl ⟨Error.pathError "open" homeManager.filePath Errno.ENOENT,
          by decide, by decide⟩)).2⟩,
    ⟨by decide,
      (missing_or_empty_file_is_default fourModes homeManager ⟨fsWithFile 0o600 "", []⟩
        (Or.inr (by decide))).2⟩⟩

/-- C7 as amended, at a concrete input: the first save into a fresh home
directory makes `/home/u/.lazyssh` with mode 0o750. -/
theorem save_creates_directory_0750_witness :
    (SaveSortMode fourModes (some homeManager) (SortMode.int 1) ⟨freshFS, []⟩).1 = none ∧
    FS.get freshFS ["home", "u", ".lazyssh"] = none ∧
    FS.get (SaveSortMode fourModes (some homeManager) (SortMode.int 1) ⟨freshFS, []⟩).2.fs
      ["home", "u", ".lazyssh"] = some (Node.dir 0o750) :=
  ⟨by decide, by decide,
    (save_creates_directory_0750 fourModes homeManager (SortMode.int 1) ⟨freshFS, []⟩
      (by decide) (by decide)).1⟩

/-- C8 as amended, at concrete inputs: a save over a file of mode 0o644
replaces the content and keeps 0o644; a first save makes the file with 0o600. -/
theorem save_replaces_content_keeps_mode_witness :
    FS.get (SaveSortMode fourModes (some homeManager) (SortMode.int 1)
        ⟨fsWithFile 0o644 "\x7b\"theme\": \"dark\"\x7d", []⟩).2.fs homeManager.filePath =
      some (Node.file 0o644 "\x7b\n  \"sort_mode\": 1\n\x7d".toList) ∧
    FS.get (SaveSortMode fourModes (some homeManager) (SortMode.int 1)
        ⟨freshFS, []⟩).2.fs homeManager.filePath =
      some (Node.file 0o600 "\x7b\n  \"sort_mode\": 1\n\x7d".toList) :=
  ⟨(save_replaces_content_keeps_mode fourModes homeManager (SortMode.int 1)
      ⟨fsWithFile 0o644 "\x7b\"theme\": \"dark\"\x7d", []⟩ (by decide)).1,
    (save_replaces_content_keeps_mode fourModes homeManager (SortMode.int 1)
      ⟨freshFS, []⟩ (by decide)).1⟩

/-- C9 at a concrete input: a first save, and a save over a file that holds
another mode and another key, leave the same text. -/
theorem save_output_is_deterministic_witness :
    indentObject (documentOf GoKind.int (SortMode.int 1)) =
      "\x7b\n  \"sort_mode\": 1\n\x7d".toList ∧
    ∃ mode1 mode2,
      FS.get (SaveSortMode fourModes (some homeManager) (SortMode.int 1)
        ⟨freshFS, []⟩).2.fs homeManager.filePath =
        some (Node.file mode1 (indentObject (documentOf GoKind.int (SortMode.int 1)))) ∧
      FS.get (SaveSortMode fourModes (some homeManager) (SortMode.int 1)
        ⟨fsWithFile 0o644 "\x7b\"sort_mode\": 3, \"theme\": \"dark\"\x7d", []⟩).2.fs
          homeManager.filePath =
        some (Node.file mode2 (indentObject (documentOf GoKind.int (SortMode.int 1)))) :=
  ⟨by decide,
    (save_output_is_deterministic fourModes homeManager (SortMode.int 1) ⟨freshFS, []⟩
      ⟨fsWithFile 0o644 "\x7b\"sort_mode\": 3, \"theme\": \"dark\"\x7d", []⟩
      (by decide) (by decide) (by decide)).1⟩

/-- C10 at concrete inputs: a settings file that is not JSON, and one its
owner may not read; the save fails and the file stays as it is. -/
theorem save_after_failed_read_changes_nothing_witness :
    ((SaveSortMode fourModes (some homeManager) (SortMode.int 1)
        ⟨fsWithFile 0o600 "sort_mode=1", []⟩).1 = some Error.malformedJSON ∧
      (SaveSortMode fourModes (some homeManager) (SortMode.int 1)
        ⟨fsWithFile 0o600 "sort_mode=1", []⟩).2.fs = fsWithFile 0o600 "sort_mode=1") ∧
    ((SaveSortMode fourModes (some homeManager) (SortMode.int 1)
        ⟨fsWithFile 0o200 "\x7b\x7d", []⟩).1 =
        some (Error.pathError "open" homeManager.filePath Errno.EACCES) ∧
      (SaveSortMode fourModes (some homeManager) (SortMode.int 1)
        ⟨fsWithFile 0o200 "\x7b\x7d", []⟩).2.fs = fsWithFile 0o200 "\x7b\x7d") :=
  ⟨⟨(save_after_failed_read_changes_nothing fourModes homeManager (SortMode.int 1)
        ⟨fsWithFile 0o600 "sort_mode=1", []⟩ Error.malformedJSON (by decide)).1,
      (save_after_failed_read_changes_nothing fourModes homeManager (SortMode.int 1)
        ⟨fsWithFile 0o600 "sort_mode=1", []⟩ Error.malformedJSON (by decide)).2.1⟩,
    ⟨(save_after_failed_read_changes_nothing fourModes homeManager (SortMode.int 1)
        ⟨fsWithFile 0o200 "\x7b\x7d", []⟩
        (Error.pathError "open" homeManager.filePath Errno.EACCES) (by decide)).1,
      (save_after_failed_read_changes_nothing fourModes homeManager (SortMode.int 1)
        ⟨fsWithFile 0o200 "\x7b\x7d", []⟩
        (Error.pathError "open" homeManager.filePath Errno.EACCES) (by decide)).2.1⟩⟩

end LazySSH
